import Mathlib

/-!
Verification of the quaigh logic-network core: data model, fanout view,
forward/reverse levelization and the node-substitution rewrite primitive.

The analysis code (`FanoutView`, the level builders, `substitute_node`) is
translated directly from the sources.  The underlying network data model
(`Signal`, `Gate`, `Network` and its canonicalization passes), which the
sources use but do not define, is modelled from the specification.
-/

namespace Quaigh

/-- Modelled from the spec: the source of a signal is one of three mutually
exclusive kinds — a constant, a primary input (with its input index), or a
node (with its node index). -/
inductive Source where
  | const : Source
  | input : Nat → Source
  | node : Nat → Source
deriving DecidableEq, Repr

/-- Modelled from the spec: a `Signal` is a source plus a polarity bit
orthogonal to the source kind; complementing toggles the polarity without
touching identity. -/
structure Signal where
  src : Source
  pol : Bool
deriving DecidableEq, Repr

/-- Complement of a signal: toggles the polarity bit only. -/
def Signal.compl (s : Signal) : Signal := ⟨s.src, !s.pol⟩

def Signal.is_input (s : Signal) : Bool :=
  match s.src with
  | .input _ => true
  | _ => false

def Signal.is_constant (s : Signal) : Bool :=
  match s.src with
  | .const => true
  | _ => false

def Signal.is_var (s : Signal) : Bool :=
  match s.src with
  | .node _ => true
  | _ => false

/-- The non-inverted signal for node `v`. -/
def Signal.ofNode (v : Nat) : Signal := ⟨.node v, false⟩

/-- The non-inverted signal for primary input `i`. -/
def Signal.ofInput (i : Nat) : Signal := ⟨.input i, false⟩

/-- Modelled from the spec: binary gate discriminators. -/
inductive BinOp where
  | and | xor
deriving DecidableEq, Repr

/-- Modelled from the spec: ternary gate discriminators. -/
inductive TernOp where
  | and | xor | mux | maj
deriving DecidableEq, Repr

/-- Modelled from the spec: n-ary gate discriminators. -/
inductive NaryOp where
  | and | or | nand | nor | xor | xnor
deriving DecidableEq, Repr

/-- Modelled from the spec: a `Gate` is a tagged variant over an ordered
sequence of dependency signals — binary and ternary functions, n-ary
functions, `Buf` (forwarding wire), `Dff` (flip-flop) and `Lut`. -/
inductive Gate where
  | binary : BinOp → Signal → Signal → Gate
  | ternary : TernOp → Signal → Signal → Signal → Gate
  | nary : NaryOp → List Signal → Gate
  | buf : Signal → Gate
  | dff : Signal → Gate
  | lut : List Signal → List Bool → Gate
deriving DecidableEq, Repr

/-- Modelled from the spec: every gate variant exposes its fanin sequence
uniformly. -/
def Gate.dependencies : Gate → List Signal
  | .binary _ a b => [a, b]
  | .ternary _ a b c => [a, b, c]
  | .nary _ fs => fs
  | .buf s => [s]
  | .dff s => [s]
  | .lut fs _ => fs

/-- Apply a signal transformation to every dependency of a gate, keeping the
discriminator. -/
def Gate.mapSigs (f : Signal → Signal) : Gate → Gate
  | .binary op a b => .binary op (f a) (f b)
  | .ternary op a b c => .ternary op (f a) (f b) (f c)
  | .nary op fs => .nary op (fs.map f)
  | .buf s => .buf (f s)
  | .dff s => .dff (f s)
  | .lut fs t => .lut (fs.map f) t

/-- `true` exactly on `Buf` gates. -/
def Gate.isBuf : Gate → Bool
  | .buf _ => true
  | _ => false

/-- Modelled from the spec: a `Network` owns a count of primary inputs, an
ordered sequence of nodes (each one gate), and an ordered sequence of
primary-output signals. -/
structure Network where
  nbInputs : Nat
  gates : List Gate
  outputs : List Signal
deriving DecidableEq, Repr

def Network.nbNodes (n : Network) : Nat := n.gates.length

def Network.nbOutputs (n : Network) : Nat := n.outputs.length

/-- `output(i)` accessor; loops in the sources only index it in range. -/
def Network.output (n : Network) (i : Nat) : Signal :=
  n.outputs.getD i ⟨.const, false⟩

/-- `input(i)` accessor: the canonical signal of primary input `i`. -/
def Network.input (_ : Network) (i : Nat) : Signal := Signal.ofInput i

/-- `node(i)` accessor: the canonical non-inverted signal identifying node
`i`. -/
def Network.node (_ : Network) (i : Nat) : Signal := Signal.ofNode i

/-- Validity of one dependency signal appearing below index bound `bound`:
constants are always valid, input indices must be below the input count and
node indices strictly below `bound` (acyclicity). -/
def Signal.validDep (bound nbIn : Nat) (s : Signal) : Bool :=
  match s.src with
  | .const => true
  | .input j => j < nbIn
  | .node v => v < bound

/-- Dependency validity of a list of gates occupying consecutive indices
starting at `i`: each gate's dependencies reference constants, inputs in
range, or strictly smaller node indices. -/
def gatesWF (nbIn : Nat) : Nat → List Gate → Bool
  | _, [] => true
  | i, g :: gs => g.dependencies.all (Signal.validDep i nbIn) && gatesWF nbIn (i + 1) gs

/-- The spec's structural invariants: every node's dependencies reference
constants, inputs in range, or strictly smaller node indices; every output
references a constant, an input in range, or a live node index. -/
def Network.wellFormed (n : Network) : Bool :=
  gatesWF n.nbInputs 0 n.gates &&
  n.outputs.all (Signal.validDep n.nbNodes n.nbInputs)

/-! ### FanoutView (translated from src/utils/fanout_view.rs) -/

/-- View of the fanout of each node in a network: for every primary input
and every node, the list of node indices that directly depend on it. -/
structure FanoutView where
  pi_fanout : List (List Nat)
  node_fanout : List (List Nat)
deriving DecidableEq, Repr

/-- Push `x` onto the list stored at position `j` (in range for every
well-formed network). -/
def pushTo (ls : List (List Nat)) (j x : Nat) : List (List Nat) :=
  match ls.get? j with
  | some l => ls.set j (l ++ [x])
  | none => ls

/-- One builder step of `FanoutView::new`: record node `i` as a fanout of
each of its non-constant dependencies. -/
def FanoutView.addDeps (i : Nat) : List Signal → FanoutView → FanoutView
  | [], fv => fv
  | d :: ds, fv =>
    let fv' :=
      match d.src with
      | .input j => { fv with pi_fanout := pushTo fv.pi_fanout j i }
      | .node v => { fv with node_fanout := pushTo fv.node_fanout v i }
      | .const => fv
    FanoutView.addDeps i ds fv'

/-- The builder loop of `FanoutView::new`: process the gates at consecutive
indices starting at `i`. -/
def FanoutView.build (i : Nat) : List Gate → FanoutView → FanoutView
  | [], fv => fv
  | g :: gs, fv => FanoutView.build (i + 1) gs (FanoutView.addDeps i g.dependencies fv)

/-- `FanoutView::new`: a single linear pass over every node's dependency
list in increasing node order. -/
def FanoutView.new (ntk : Network) : FanoutView :=
  FanoutView.build 0 ntk.gates
    ⟨List.replicate ntk.nbInputs [], List.replicate ntk.nbNodes []⟩

/-- `FanoutView::fanouts`: the dependent-node indices of a signal's source,
dispatching on the source kind and ignoring polarity; empty for
constants. -/
def FanoutView.fanouts (fv : FanoutView) (s : Signal) : List Nat :=
  match s.src with
  | .input j => fv.pi_fanout.getD j []
  | .node v => fv.node_fanout.getD v []
  | .const => []

/-! ### Rewrite primitive (translated from src/optim/resubstitute.rs) -/

/-- Modelled from the spec: `Network::replace` overwrites node
`node_index`'s gate in place, preserving its index. -/
def Network.replace (ntk : Network) (node : Nat) (g : Gate) : Network :=
  { ntk with gates := ntk.gates.set node g }

/-- `substitute_node`: substitute a node with an existing signal by
replacing its gate with a `Buf` of the new signal. -/
def substitute_node (ntk : Network) (node : Nat) (newSignal : Signal) : Network :=
  ntk.replace node (.buf newSignal)

/-! ### Canonicalization and cleanup (modelled from the spec) -/

/-- Resolve a signal through a forwarding map `m` of node targets, composing
polarity; signals not referring to a mapped node are unchanged. -/
def resolveSig (m : List Signal) (s : Signal) : Signal :=
  match s.src with
  | .node v =>
    match m.get? v with
    | some t => ⟨t.src, xor t.pol s.pol⟩
    | none => s
  | _ => s

/-- The forwarding-map entry for the gate at index `k`: a `Buf` maps to its
(transitively resolved) target, every other gate to its own node signal. -/
def resolveEntry (m : List Signal) (k : Nat) : Gate → Signal
  | .buf s => resolveSig m s
  | _ => Signal.ofNode k

/-- Build the forwarding map over gates at consecutive indices starting at
`k`. -/
def resolveMapAux (k : Nat) : List Gate → List Signal → List Signal
  | [], m => m
  | g :: gs, m => resolveMapAux (k + 1) gs (m ++ [resolveEntry m k g])

def resolveMap (gates : List Gate) : List Signal := resolveMapAux 0 gates []

/-- Modelled from the spec: the Buf-forwarding phase of `make_canonical` —
every referrer of a pure forwarding wire is repointed to its target,
composing polarity. -/
def forwardBufs (ntk : Network) : Network :=
  let m := resolveMap ntk.gates
  ⟨ntk.nbInputs, ntk.gates.map (Gate.mapSigs (resolveSig m)),
    ntk.outputs.map (resolveSig m)⟩

/-- Mark the node referenced by a signal, if any. -/
def markSig (marks : List Bool) (s : Signal) : List Bool :=
  match s.src with
  | .node v => marks.set v true
  | _ => marks

/-- Default gate used by total list lookups; never observed on the indices
the algorithms touch. -/
def defaultGate : Gate := .buf ⟨.const, false⟩

/-- One step of the backward reachability sweep: if node `n` is marked,
mark all of its node dependencies. -/
def markStep (gates : List Gate) (marks : List Bool) (n : Nat) : List Bool :=
  if marks.getD n false then
    (gates.getD n defaultGate).dependencies.foldl markSig marks
  else marks

/-- Modelled from the spec: the set of nodes transitively reachable from the
outputs' dependency graph, computed by one high-to-low sweep (dependencies
always point to strictly smaller indices). -/
def reachMarks (ntk : Network) : List Bool :=
  let init := ntk.outputs.foldl markSig (List.replicate ntk.nbNodes false)
  (List.range ntk.nbNodes).reverse.foldl (markStep ntk.gates) init

/-- Number of kept nodes strictly below index `v`: the new index of a
surviving node under stable renumbering. -/
def countTrueBefore (marks : List Bool) (v : Nat) : Nat :=
  ((marks.take v).filter id).length

/-- Remap a signal to the new numbering of surviving nodes. -/
def remapSig (marks : List Bool) (s : Signal) : Signal :=
  match s.src with
  | .node v =>
    if marks.getD v false then ⟨.node (countTrueBefore marks v), s.pol⟩ else s
  | _ => s

/-- The gates surviving a mark vector, in their original relative order. -/
def keepGates (gates : List Gate) (marks : List Bool) : List Gate :=
  (gates.zip marks).filterMap fun p => if p.2 then some p.1 else none

/-- Modelled from the spec: `cleanup` drops every node not reachable from
the outputs, renumbering the remainder stably and remapping every surviving
signal and output. -/
def cleanup (ntk : Network) : Network :=
  let marks := reachMarks ntk
  ⟨ntk.nbInputs, (keepGates ntk.gates marks).map (Gate.mapSigs (remapSig marks)),
    ntk.outputs.map (remapSig marks)⟩

/-- Modelled from the spec: `make_canonical` forwards pure `Buf` chains
(repointing every referrer to the target, composing polarity) and
physically drops the nodes left without referrers, renumbering stably. -/
def make_canonical (ntk : Network) : Network := cleanup (forwardBufs ntk)

/-! ### Level computation (translated from src/utils/level_view.rs) -/

/-- Failure modes of the level builders: the explicit length assertion of
`compute_levels`, or an index/contract panic. -/
inductive Err where
  | assertFail : Err
  | panic : Err
deriving DecidableEq, Repr

/-- The mutable state of a level traversal: the level array and the visited
set. -/
abbrev LevelState := List Nat × List Nat

/-- Modelled from the spec: `Signal::var` is the node index of a node
signal; the spec gives it no meaning on constants and primary inputs, where
using it is a caller error. -/
def outVar (s : Signal) : Except Err Nat :=
  match s.src with
  | .node v => .ok v
  | _ => .error .panic

/-- Lookup in an optional per-input/per-output level table: a missing table
yields level 0, a present table is indexed (out of range is a panic).
Translates `fanin_level` and `fanout_level`. -/
def tableLevel (tbl : Option (List Nat)) (i : Nat) : Except Err Nat :=
  match tbl with
  | none => .ok 0
  | some t =>
    match t.get? i with
    | some v => .ok v
    | none => .error .panic

/-- The fanin loop of `LevelViewBuilder::update`: fold the running level
over the dependencies, recursing (`go`) into node fanins and looking up
(`fl`) input fanins. -/
def foldFanins (go : Nat → LevelState → Except Err (Nat × LevelState))
    (fl : Nat → Except Err Nat) :
    List Signal → Nat → LevelState → Except Err (Nat × LevelState)
  | [], lv, st => .ok (lv, st)
  | d :: ds, lv, st =>
    match d.src with
    | .input i =>
      match fl i with
      | .ok v => foldFanins go fl ds (max lv v) st
      | .error e => .error e
    | .const => foldFanins go fl ds lv st
    | .node v =>
      match go v st with
      | .ok r => foldFanins go fl ds (max lv r.1) r.2
      | .error e => .error e

/-- The level increment of a gate: 1, except 0 for `Buf` when
`count_buffer` is false. -/
def levelInc (countBuffer : Bool) (g : Gate) : Nat :=
  if countBuffer then 1
  else
    match g with
    | .buf _ => 0
    | _ => 1

/-- `LevelViewBuilder::update`: memoized forward DFS, fuelled (the fuel is a
termination device; any fuel above the node index suffices on well-formed
networks). -/
def updateF (ntk : Network) (piLv : Option (List Nat)) (cb : Bool) :
    Nat → Nat → LevelState → Except Err (Nat × LevelState)
  | 0, _, _ => .error .panic
  | fuel + 1, node, st =>
    if node ∈ st.2 then
      match st.1.get? node with
      | some l => .ok (l, st)
      | none => .error .panic
    else
      match ntk.gates.get? node with
      | none => .error .panic
      | some g =>
        match foldFanins (updateF ntk piLv cb fuel) (tableLevel piLv)
            g.dependencies 0 (st.1, node :: st.2) with
        | .error e => .error e
        | .ok (lv, st2) =>
          if node < st2.1.length then
            .ok (lv + levelInc cb g, (st2.1.set node (lv + levelInc cb g), st2.2))
          else .error .panic

/-- The output loop of `LevelViewBuilder::build`. -/
def buildLoop (ntk : Network) (piLv : Option (List Nat)) (cb : Bool) :
    List Signal → LevelState → Except Err LevelState
  | [], st => .ok st
  | o :: os, st =>
    match outVar o with
    | .error e => .error e
    | .ok v =>
      match updateF ntk piLv cb (ntk.nbNodes + 1) v st with
      | .error e => .error e
      | .ok r => buildLoop ntk piLv cb os r.2

/-- `LevelViewBuilder::build`: start from a zero level array and update from
every primary output's node. -/
def buildLevels (ntk : Network) (piLv : Option (List Nat)) (cb : Bool) :
    Except Err LevelState :=
  buildLoop ntk piLv cb ntk.outputs (List.replicate ntk.nbNodes 0, [])

/-- `LevelViewBuilder::compute_levels`: assert the arrival table length,
then build. -/
def computeLevelsCfg (ntk : Network) (piLv : Option (List Nat))
    (cb : Option Bool) : Except Err (List Nat) :=
  if piLv.all fun t => t.length == ntk.nbInputs then
    match buildLevels ntk piLv (cb.getD true) with
    | .ok st => .ok st.1
    | .error e => .error e
  else .error .assertFail

/-- The public `compute_levels` entry point. -/
def compute_levels (ntk : Network) (cb : Bool) : Except Err (List Nat) :=
  computeLevelsCfg ntk none (some cb)

/-- The scan of `ReverseLevelViewBuilder::add_fanout_levels`: find the first
output position whose node index matches `v`, reading each output's `var`. -/
def findPoAux (v : Nat) : List Signal → Nat → Except Err (Option Nat)
  | [], _ => .ok none
  | o :: os, k =>
    match outVar o with
    | .error e => .error e
    | .ok w => if w = v then .ok (some k) else findPoAux v os (k + 1)

/-- `ReverseLevelViewBuilder::add_fanout_levels`: the reverse-level
contribution of a signal from being itself an output — 0 without a required
table or for a non-node signal, otherwise the required level of the first
matching output position (0 when absent from the output list). -/
def addFanoutLevels (ntk : Network) (poLv : Option (List Nat)) (sig : Signal) :
    Except Err Nat :=
  match poLv, sig.src with
  | none, _ => .ok 0
  | some _, .const => .ok 0
  | some _, .input _ => .ok 0
  | some _, .node v =>
    match findPoAux v ntk.outputs 0 with
    | .error e => .error e
    | .ok (some po) => tableLevel poLv po
    | .ok none => .ok 0

/-- The fanout loop of `ReverseLevelViewBuilder::update`: fold the running
level over the fanout nodes, recursing (`go`) into each. -/
def foldFanouts (go : Nat → LevelState → Except Err (Nat × LevelState)) :
    List Nat → Nat → LevelState → Except Err (Nat × LevelState)
  | [], lv, st => .ok (lv, st)
  | f :: fs, lv, st =>
    match go f st with
    | .ok r => foldFanouts go fs (max lv r.1) r.2
    | .error e => .error e

/-- `ReverseLevelViewBuilder::update_node` (with the body of `update`
inlined at its recursive use): memoized reverse DFS driven forward through
the fanout view, fuelled as in `updateF`. -/
def rupdateNode (ntk : Network) (fv : FanoutView) (poLv : Option (List Nat))
    (cb : Bool) :
    Nat → Nat → LevelState → Except Err (Nat × LevelState)
  | 0, _, _ => .error .panic
  | fuel + 1, node, st =>
    if node ∈ st.2 then
      match st.1.get? node with
      | some l => .ok (l, st)
      | none => .error .panic
    else
      match addFanoutLevels ntk poLv (ntk.node node) with
      | .error e => .error e
      | .ok r =>
        match foldFanouts (rupdateNode ntk fv poLv cb fuel)
            (fv.fanouts (ntk.node node)) r (st.1, node :: st.2) with
        | .error e => .error e
        | .ok (lv, st2) =>
          match ntk.gates.get? node with
          | none => .error .panic
          | some g =>
            if node < st2.1.length then
              .ok (lv + levelInc cb g, (st2.1.set node (lv + levelInc cb g), st2.2))
            else .error .panic

/-- `ReverseLevelViewBuilder::update`: contribution-as-output plus the fold
over the signal's fanouts. -/
def rupdateSig (ntk : Network) (fv : FanoutView) (poLv : Option (List Nat))
    (cb : Bool) (fuel : Nat) (sig : Signal) (st : LevelState) :
    Except Err (Nat × LevelState) :=
  match addFanoutLevels ntk poLv sig with
  | .error e => .error e
  | .ok r => foldFanouts (rupdateNode ntk fv poLv cb fuel) (fv.fanouts sig) r st

/-- The input loop of `ReverseLevelViewBuilder::build`. -/
def rbuildLoop (ntk : Network) (fv : FanoutView) (poLv : Option (List Nat))
    (cb : Bool) (fuel : Nat) : List Nat → LevelState → Except Err LevelState
  | [], st => .ok st
  | pi :: pis, st =>
    match rupdateSig ntk fv poLv cb fuel (ntk.input pi) st with
    | .error e => .error e
    | .ok r => rbuildLoop ntk fv poLv cb fuel pis r.2

/-- `ReverseLevelViewBuilder::build`: start from a zero level array and
update from every primary input. -/
def rbuildLevels (ntk : Network) (fv : FanoutView) (poLv : Option (List Nat))
    (cb : Bool) : Except Err LevelState :=
  rbuildLoop ntk fv poLv cb (ntk.nbNodes + 1) (List.range ntk.nbInputs)
    (List.replicate ntk.nbNodes 0, [])

/-- `ReverseLevelViewBuilder::compute_levels`: assert the required table
length, then build. -/
def computeReverseLevelsCfg (ntk : Network) (fv : FanoutView)
    (poLv : Option (List Nat)) (cb : Option Bool) : Except Err (List Nat) :=
  if poLv.all fun t => t.length == ntk.nbOutputs then
    match rbuildLevels ntk fv poLv (cb.getD true) with
    | .ok st => .ok st.1
    | .error e => .error e
  else .error .assertFail

/-- The public `compute_reverse_levels` entry point: builds its own fanout
view. -/
def compute_reverse_levels (ntk : Network) (cb : Bool) : Except Err (List Nat) :=
  computeReverseLevelsCfg ntk (FanoutView.new ntk) none (some cb)

/-! ### Specification-side readings of the level equations -/

/-- The gate of node `n` (total lookup; only read below its network's node
count). -/
def Network.gateD (ntk : Network) (n : Nat) : Gate :=
  ntk.gates.getD n defaultGate

/-- The arrival level of a primary input: from the configured table, or 0
without one. -/
def arrivalLv (piLv : Option (List Nat)) (i : Nat) : Nat :=
  match piLv with
  | none => 0
  | some t => t.getD i 0

/-- The forward-level contribution of one dependency, read off a level
array: the fanin's own level for a node, the arrival level for an input, 0
for a constant. -/
def faninContrib (piLv : Option (List Nat)) (levels : List Nat) (d : Signal) : Nat :=
  match d.src with
  | .const => 0
  | .input i => arrivalLv piLv i
  | .node v => levels.getD v 0

/-- Maximum forward-level contribution over a dependency list (0 when none
contributes). -/
def depsMax (piLv : Option (List Nat)) (levels : List Nat) (ds : List Signal) : Nat :=
  ds.foldl (fun a d => max a (faninContrib piLv levels d)) 0

/-- Maximum of `r` and the reverse levels of a fanout set, read off a level
array. -/
def fanoutMax (levels : List Nat) (fs : List Nat) (r : Nat) : Nat :=
  fs.foldl (fun a f => max a (levels.getD f 0)) r

/-! ### Construction interface (modelled from the spec) -/

def Network.empty : Network := ⟨0, [], []⟩

/-- Modelled from the spec: `add_input` appends a new primary input and
returns its non-inverted signal. -/
def Network.add_input (n : Network) : Network × Signal :=
  ({ n with nbInputs := n.nbInputs + 1 }, Signal.ofInput n.nbInputs)

/-- Modelled from the spec: `add` appends a new node holding `g` and returns
its non-inverted signal. -/
def Network.add (n : Network) (g : Gate) : Network × Signal :=
  ({ n with gates := n.gates ++ [g] }, Signal.ofNode n.gates.length)

/-- The `and` helper of the construction interface: a binary And node. -/
def Network.andGate (n : Network) (a b : Signal) : Network × Signal :=
  n.add (.binary .and a b)

/-- Modelled from the spec: `add_output` appends a signal to the output
list. -/
def Network.add_output (n : Network) (s : Signal) : Network :=
  { n with outputs := n.outputs ++ [s] }

/-! ### The reference scenario network (from the repository's tests) -/

/-- The network shared by the reference scenarios: four inputs `x1..x4` and
nodes `f1=AND(x1,x2)`, `f2=AND(x3,x4)`, `f3=AND(x1,x3)`, `f4=AND(f1,f2)`,
`f5=AND(f3,f4)`, with sole output `f5`. -/
def substNetwork : Network :=
  let s0 := Network.empty
  let p1 := s0.add_input
  let p2 := p1.1.add_input
  let p3 := p2.1.add_input
  let p4 := p3.1.add_input
  let q1 := p4.1.andGate p1.2 p2.2
  let q2 := q1.1.andGate p3.2 p4.2
  let q3 := q2.1.andGate p1.2 p3.2
  let q4 := q3.1.andGate q1.2 q2.2
  let q5 := q4.1.andGate q3.2 q4.2
  q5.1.add_output q5.2

/-- The same nodes with outputs `f3` and `!f5` (the level-view test
network). -/
def levelNetwork : Network :=
  let s0 := Network.empty
  let p1 := s0.add_input
  let p2 := p1.1.add_input
  let p3 := p2.1.add_input
  let p4 := p3.1.add_input
  let q1 := p4.1.andGate p1.2 p2.2
  let q2 := q1.1.andGate p3.2 p4.2
  let q3 := q2.1.andGate p1.2 p3.2
  let q4 := q3.1.andGate q1.2 q2.2
  let q5 := q4.1.andGate q3.2 q4.2
  (q5.1.add_output q3.2).add_output q5.2.compl

/-- The memo invariant of the forward traversal: every finalized node (in
`visited` but outside the in-progress set `S`) is a live node whose node
fanins are themselves finalized, and whose stored level satisfies the
forward level equation read off the current level array. -/
def GoodF (ntk : Network) (piLv : Option (List Nat)) (cb : Bool)
    (levels visited S : List Nat) : Prop :=
  ∀ n ∈ visited, n ∉ S →
    n < ntk.nbNodes ∧
    (∀ d ∈ (ntk.gateD n).dependencies, ∀ v, d.src = .node v → v ∈ visited ∧ v ∉ S) ∧
    levels.getD n 0 =
      levelInc cb (ntk.gateD n) + depsMax piLv levels (ntk.gateD n).dependencies

/-- The memo invariant of the reverse traversal: every finalized node is a
live node whose fanout nodes are themselves finalized, and whose stored
level satisfies the reverse level equation read off the current level
array. -/
def GoodR (ntk : Network) (fv : FanoutView) (poLv : Option (List Nat)) (cb : Bool)
    (levels visited S : List Nat) : Prop :=
  ∀ n ∈ visited, n ∉ S →
    n < ntk.nbNodes ∧
    (∀ f ∈ fv.fanouts (ntk.node n), f ∈ visited ∧ f ∉ S) ∧
    ∃ r, addFanoutLevels ntk poLv (ntk.node n) = .ok r ∧
      levels.getD n 0 =
        levelInc cb (ntk.gateD n) + fanoutMax levels (fv.fanouts (ntk.node n)) r

/-- A signal does not reference any `Buf` node of the given gate list.
After Buf-forwarding, every remapped signal has this property, which is
what makes every `Buf` node unreachable and hence dropped. -/
def noBufRef (gates : List Gate) (s : Signal) : Prop :=
  ∀ w, s.src = .node w → ∀ g, gates.get? w = some g → g.isBuf = false

/-- The number of kept (marked) nodes. -/
def countTrue (marks : List Bool) : Nat := (marks.filter id).length

end Quaigh

namespace Quaigh

/-! ### List helper lemmas -/

theorem get?_set_self {α : Type} (l : List α) (i : Nat) (a : α) (h : i < l.length) :
    (l.set i a).get? i = some a := by
  induction l generalizing i with
  | nil => simp at h
  | cons b l ih =>
    cases i with
    | zero => rfl
    | succ i => simpa using ih i (by simpa using h)

theorem get?_set_ne {α : Type} (l : List α) (i j : Nat) (a : α) (h : i ≠ j) :
    (l.set i a).get? j = l.get? j := by
  induction l generalizing i j with
  | nil => rfl
  | cons b l ih =>
    cases i with
    | zero =>
      cases j with
      | zero => exact absurd rfl h
      | succ j => rfl
    | succ i =>
      cases j with
      | zero => rfl
      | succ j => simpa using ih i j fun hh => h (by rw [hh])

theorem getD_set_self {α : Type} (l : List α) (i : Nat) (a d : α) (h : i < l.length) :
    (l.set i a).getD i d = a := by
  rw [List.getD_eq_getD_get?, get?_set_self l i a h]; rfl

theorem getD_set_ne {α : Type} (l : List α) (i j : Nat) (a d : α) (h : i ≠ j) :
    (l.set i a).getD j d = l.getD j d := by
  rw [List.getD_eq_getD_get?, get?_set_ne l i j a h, ← List.getD_eq_getD_get?]

theorem mem_of_mem_set {α : Type} {l : List α} {i : Nat} {a x : α}
    (h : x ∈ l.set i a) : x ∈ l ∨ x = a := by
  induction l generalizing i with
  | nil => simp at h
  | cons b l ih =>
    cases i with
    | zero =>
      rcases List.mem_cons.1 h with h1 | h1
      · exact .inr h1
      · exact .inl (List.mem_cons_of_mem _ h1)
    | succ i =>
      rcases List.mem_cons.1 h with h1 | h1
      · exact .inl (h1 ▸ List.mem_cons_self _ _)
      · rcases ih h1 with h2 | h2
        · exact .inl (List.mem_cons_of_mem _ h2)
        · exact .inr h2

theorem mem_of_get?_eq_some {α : Type} {l : List α} {i : Nat} {a : α}
    (h : l.get? i = some a) : a ∈ l := by
  induction l generalizing i with
  | nil => simp at h
  | cons b l ih =>
    cases i with
    | zero => exact (Option.some_inj.1 h) ▸ List.mem_cons_self _ _
    | succ i => exact List.mem_cons_of_mem _ (ih h)

theorem get?_lt_isSome {α : Type} (l : List α) (i : Nat) (h : i < l.length) :
    ∃ a, l.get? i = some a := by
  induction l generalizing i with
  | nil => simp at h
  | cons b l ih =>
    cases i with
    | zero => exact ⟨b, rfl⟩
    | succ i => exact ih i (by simpa using h)

theorem foldl_max_congr {α : Type} (f g : α → Nat) :
    ∀ (xs : List α) (a : Nat), (∀ x ∈ xs, f x = g x) →
      xs.foldl (fun b x => max b (f x)) a = xs.foldl (fun b x => max b (g x)) a := by
  intro xs
  induction xs with
  | nil => intro a _; rfl
  | cons x xs ih =>
    intro a h
    simp only [List.foldl_cons, h x (List.mem_cons_self _ _)]
    exact ih _ fun y hy => h y (List.mem_cons_of_mem _ hy)

/-! ### Well-formedness extraction -/

theorem gatesWF_get? {nbIn : Nat} :
    ∀ {k : Nat} {gs : List Gate}, gatesWF nbIn k gs = true →
      ∀ {i : Nat} {g : Gate}, gs.get? i = some g →
        ∀ d ∈ g.dependencies, Signal.validDep (k + i) nbIn d = true := by
  intro k gs
  induction gs generalizing k with
  | nil => intro _ i g hg; simp at hg
  | cons g0 gs ih =>
    intro h i g hg d hd
    rw [gatesWF, Bool.and_eq_true] at h
    cases i with
    | zero =>
      cases Option.some_inj.1 hg
      exact List.all_eq_true.1 h.1 d hd
    | succ i =>
      have h2 := ih h.2 hg d hd
      have heq : k + (i + 1) = (k + 1) + i := by omega
      rw [heq]; exact h2

theorem wellFormed_deps {ntk : Network} (h : ntk.wellFormed = true)
    {i : Nat} {g : Gate} (hg : ntk.gates.get? i = some g) :
    ∀ d ∈ g.dependencies, Signal.validDep i ntk.nbInputs d = true := by
  rw [Network.wellFormed, Bool.and_eq_true] at h
  have := gatesWF_get? h.1 hg
  simpa using this

theorem wellFormed_outputs {ntk : Network} (h : ntk.wellFormed = true) :
    ∀ o ∈ ntk.outputs, Signal.validDep ntk.nbNodes ntk.nbInputs o = true := by
  rw [Network.wellFormed, Bool.and_eq_true] at h
  exact List.all_eq_true.1 h.2

theorem validDep_node {bound nbIn : Nat} {d : Signal} {v : Nat}
    (h : Signal.validDep bound nbIn d = true) (hs : d.src = .node v) : v < bound := by
  cases d with
  | mk src pol => cases hs; simpa [Signal.validDep] using h

theorem validDep_input {bound nbIn : Nat} {d : Signal} {j : Nat}
    (h : Signal.validDep bound nbIn d = true) (hs : d.src = .input j) : j < nbIn := by
  cases d with
  | mk src pol => cases hs; simpa [Signal.validDep] using h

/-! ### C8: fanouts is polarity-independent and empty on constants -/

/-- C8: for every fanout view and signal, `fanouts` of the complemented
signal equals `fanouts` of the signal itself (the result depends only on the
source), and `fanouts` of a constant signal of either polarity is empty. -/
theorem fanouts_polarity_independent_and_const_empty :
    ∀ (fv : FanoutView) (s : Signal),
      fv.fanouts s.compl = fv.fanouts s ∧
      ∀ b : Bool, fv.fanouts ⟨.const, b⟩ = [] := by
  intro fv s
  constructor
  · cases s with
    | mk src pol => cases src <;> rfl
  · intro b; rfl

end Quaigh

namespace Quaigh

/-! ### C9: fanout lists are sorted -/

theorem sorted_append_one {l : List Nat} {x : Nat} (hs : l.Sorted (· ≤ ·))
    (hb : ∀ y ∈ l, y ≤ x) : (l ++ [x]).Sorted (· ≤ ·) := by
  rw [List.Sorted, List.pairwise_append]
  refine ⟨hs, List.pairwise_singleton _ _, ?_⟩
  intro a ha b hb'
  rw [List.mem_singleton] at hb'
  exact hb' ▸ hb a ha

theorem pushTo_pred (P : List Nat → Prop) {ls : List (List Nat)} {j x : Nat}
    (h : ∀ l ∈ ls, P l) (hp : ∀ l ∈ ls, P (l ++ [x])) :
    ∀ l ∈ pushTo ls j x, P l := by
  unfold pushTo
  cases hg : ls.get? j with
  | none => simpa [hg] using h
  | some l0 =>
    simp only [hg]
    intro l hl
    rcases mem_of_mem_set hl with h1 | h1
    · exact h l h1
    · exact h1 ▸ hp l0 (mem_of_get?_eq_some hg)

/-- Sortedness with an inclusive element bound: the invariant carried while
node `i` is being recorded. -/
def fvBounded (bound : Nat) (lss : List (List Nat)) : Prop :=
  ∀ l ∈ lss, l.Sorted (· ≤ ·) ∧ ∀ x ∈ l, x ≤ bound

theorem addDeps_bounded (i : Nat) :
    ∀ (ds : List Signal) (fv : FanoutView),
      fvBounded i fv.pi_fanout → fvBounded i fv.node_fanout →
      fvBounded i (FanoutView.addDeps i ds fv).pi_fanout ∧
        fvBounded i (FanoutView.addDeps i ds fv).node_fanout := by
  intro ds
  induction ds with
  | nil => intro fv h1 h2; exact ⟨h1, h2⟩
  | cons d ds ih =>
    intro fv h1 h2
    rw [FanoutView.addDeps]
    have key : ∀ (lss : List (List Nat)), fvBounded i lss →
        fvBounded i (pushTo lss (match d.src with | .input j => j | .node v => v | .const => 0) i) := by
      intro lss h
      exact pushTo_pred _ h fun l hl =>
        ⟨sorted_append_one (h l hl).1 (h l hl).2,
         fun x hx => by
           rcases List.mem_append.1 hx with h3 | h3
           · exact (h l hl).2 x h3
           · rw [List.mem_singleton] at h3; omega⟩
    cases hsrc : d.src with
    | const => exact ih fv h1 h2
    | input j =>
      refine ih _ ?_ h2
      have := key fv.pi_fanout h1
      simpa [hsrc] using this
    | node v =>
      refine ih _ h1 ?_
      have := key fv.node_fanout h2
      simpa [hsrc] using this

theorem build_sorted :
    ∀ (gs : List Gate) (i : Nat) (fv : FanoutView),
      (∀ l ∈ fv.pi_fanout, l.Sorted (· ≤ ·) ∧ ∀ x ∈ l, x < i) →
      (∀ l ∈ fv.node_fanout, l.Sorted (· ≤ ·) ∧ ∀ x ∈ l, x < i) →
      (∀ l ∈ (FanoutView.build i gs fv).pi_fanout, l.Sorted (· ≤ ·)) ∧
        (∀ l ∈ (FanoutView.build i gs fv).node_fanout, l.Sorted (· ≤ ·)) := by
  intro gs
  induction gs with
  | nil =>
    intro i fv h1 h2
    exact ⟨fun l hl => (h1 l hl).1, fun l hl => (h2 l hl).1⟩
  | cons g gs ih =>
    intro i fv h1 h2
    rw [FanoutView.build]
    have hstep := addDeps_bounded i g.dependencies fv
      (fun l hl => ⟨(h1 l hl).1, fun x hx => Nat.le_of_lt ((h1 l hl).2 x hx)⟩)
      (fun l hl => ⟨(h2 l hl).1, fun x hx => Nat.le_of_lt ((h2 l hl).2 x hx)⟩)
    exact ih (i + 1)
      (FanoutView.addDeps i g.dependencies fv)
      (fun l hl => ⟨(hstep.1 l hl).1, fun x hx => Nat.lt_succ_of_le ((hstep.1 l hl).2 x hx)⟩)
      (fun l hl => ⟨(hstep.2 l hl).1, fun x hx => Nat.lt_succ_of_le ((hstep.2 l hl).2 x hx)⟩)

/-- C9: every per-source fanout list produced by `FanoutView::new` — both
the per-primary-input lists and the per-node lists — is sorted in ascending
order of dependent-node index. -/
theorem fanout_lists_sorted (ntk : Network) :
    (∀ l ∈ (FanoutView.new ntk).pi_fanout, l.Sorted (· ≤ ·)) ∧
    (∀ l ∈ (FanoutView.new ntk).node_fanout, l.Sorted (· ≤ ·)) := by
  unfold FanoutView.new
  refine build_sorted ntk.gates 0 _ ?_ ?_ <;>
  · intro l hl
    have := List.eq_of_mem_replicate hl
    subst this
    exact ⟨List.sorted_nil, by simp⟩

end Quaigh

namespace Quaigh

/-! ### C4: fanout round-trip -/

theorem get?_some_lt {α : Type} {l : List α} {i : Nat} {a : α}
    (h : l.get? i = some a) : i < l.length := by
  induction l generalizing i with
  | nil => simp at h
  | cons b l ih =>
    cases i with
    | zero => simp
    | succ i => simpa using ih h

theorem pushTo_length (ls : List (List Nat)) (j x : Nat) :
    (pushTo ls j x).length = ls.length := by
  unfold pushTo
  cases ls.get? j <;> simp

theorem pushTo_mem {ls : List (List Nat)} {j : Nat} (x : Nat) (hj : j < ls.length)
    (y k : Nat) :
    y ∈ (pushTo ls j x).getD k [] ↔ y ∈ ls.getD k [] ∨ (y = x ∧ k = j) := by
  obtain ⟨l0, hl0⟩ := get?_lt_isSome ls j hj
  unfold pushTo
  rw [hl0]
  by_cases hk : k = j
  · subst hk
    rw [getD_set_self _ _ _ _ hj]
    have : ls.getD k [] = l0 := by rw [List.getD_eq_getD_get?, hl0]; rfl
    rw [this]
    simp [List.mem_append]
  · rw [getD_set_ne _ _ _ _ _ fun hh => hk hh.symm]
    simp [hk]

theorem addDeps_pi_length (i : Nat) :
    ∀ (ds : List Signal) (fv : FanoutView),
      (FanoutView.addDeps i ds fv).pi_fanout.length = fv.pi_fanout.length := by
  intro ds
  induction ds with
  | nil => intro fv; rfl
  | cons d ds ih =>
    intro fv
    rw [FanoutView.addDeps]
    cases hsrc : d.src <;> simp [hsrc, ih, pushTo_length]

theorem addDeps_node_length (i : Nat) :
    ∀ (ds : List Signal) (fv : FanoutView),
      (FanoutView.addDeps i ds fv).node_fanout.length = fv.node_fanout.length := by
  intro ds
  induction ds with
  | nil => intro fv; rfl
  | cons d ds ih =>
    intro fv
    rw [FanoutView.addDeps]
    cases hsrc : d.src <;> simp [hsrc, ih, pushTo_length]

theorem addDeps_pi_mem (i nbIn bound : Nat) :
    ∀ (ds : List Signal) (fv : FanoutView),
      fv.pi_fanout.length = nbIn →
      (∀ d ∈ ds, Signal.validDep bound nbIn d = true) →
      ∀ j y, y ∈ (FanoutView.addDeps i ds fv).pi_fanout.getD j [] ↔
        y ∈ fv.pi_fanout.getD j [] ∨ (y = i ∧ ∃ d ∈ ds, d.src = .input j) := by
  intro ds
  induction ds with
  | nil => intro fv hlen _ j y; simp [FanoutView.addDeps]
  | cons d ds ih =>
    intro fv hlen hval j y
    rw [FanoutView.addDeps]
    have hval' : ∀ d' ∈ ds, Signal.validDep bound nbIn d' = true :=
      fun d' hd' => hval d' (List.mem_cons_of_mem _ hd')
    cases hsrc : d.src with
    | const =>
      simp only [hsrc]
      rw [ih fv hlen hval' j y]
      constructor
      · rintro (h | ⟨rfl, d', hd', hs⟩)
        · exact .inl h
        · exact .inr ⟨rfl, d', List.mem_cons_of_mem _ hd', hs⟩
      · rintro (h | ⟨rfl, d', hd', hs⟩)
        · exact .inl h
        · rcases List.mem_cons.1 hd' with rfl | hd''
          · rw [hsrc] at hs; cases hs
          · exact .inr ⟨rfl, d', hd'', hs⟩
    | node v =>
      simp only [hsrc]
      rw [ih _ (by simpa using hlen) hval' j y]
      constructor
      · rintro (h | ⟨rfl, d', hd', hs⟩)
        · exact .inl h
        · exact .inr ⟨rfl, d', List.mem_cons_of_mem _ hd', hs⟩
      · rintro (h | ⟨rfl, d', hd', hs⟩)
        · exact .inl h
        · rcases List.mem_cons.1 hd' with rfl | hd''
          · rw [hsrc] at hs; cases hs
          · exact .inr ⟨rfl, d', hd'', hs⟩
    | input j0 =>
      simp only [hsrc]
      have hj0 : j0 < nbIn := validDep_input (hval d (List.mem_cons_self _ _)) hsrc
      rw [ih _ (by simpa [pushTo_length] using hlen) hval' j y]
      rw [pushTo_mem i (by omega) y j]
      constructor
      · rintro ((h | ⟨rfl, rfl⟩) | ⟨rfl, d', hd', hs⟩)
        · exact .inl h
        · exact .inr ⟨rfl, d, List.mem_cons_self _ _, hsrc⟩
        · exact .inr ⟨rfl, d', List.mem_cons_of_mem _ hd', hs⟩
      · rintro (h | ⟨rfl, d', hd', hs⟩)
        · exact .inl (.inl h)
        · rcases List.mem_cons.1 hd' with rfl | hd''
          · rw [hsrc] at hs
            cases hs
            exact .inl (.inr ⟨rfl, rfl⟩)
          · exact .inr ⟨rfl, d', hd'', hs⟩

theorem addDeps_node_mem (i nbIn bound : Nat) :
    ∀ (ds : List Signal) (fv : FanoutView),
      bound ≤ fv.node_fanout.length →
      (∀ d ∈ ds, Signal.validDep bound nbIn d = true) →
      ∀ v y, y ∈ (FanoutView.addDeps i ds fv).node_fanout.getD v [] ↔
        y ∈ fv.node_fanout.getD v [] ∨ (y = i ∧ ∃ d ∈ ds, d.src = .node v) := by
  intro ds
  induction ds with
  | nil => intro fv hlen _ v y; simp [FanoutView.addDeps]
  | cons d ds ih =>
    intro fv hlen hval v y
    rw [FanoutView.addDeps]
    have hval' : ∀ d' ∈ ds, Signal.validDep bound nbIn d' = true :=
      fun d' hd' => hval d' (List.mem_cons_of_mem _ hd')
    cases hsrc : d.src with
    | const =>
      simp only [hsrc]
      rw [ih fv hlen hval' v y]
      constructor
      · rintro (h | ⟨rfl, d', hd', hs⟩)
        · exact .inl h
        · exact .inr ⟨rfl, d', List.mem_cons_of_mem _ hd', hs⟩
      · rintro (h | ⟨rfl, d', hd', hs⟩)
        · exact .inl h
        · rcases List.mem_cons.1 hd' with rfl | hd''
          · rw [hsrc] at hs; cases hs
          · exact .inr ⟨rfl, d', hd'', hs⟩
    | input j0 =>
      simp only [hsrc]
      rw [ih _ (by simpa using hlen) hval' v y]
      constructor
      · rintro (h | ⟨rfl, d', hd', hs⟩)
        · exact .inl h
        · exact .inr ⟨rfl, d', List.mem_cons_of_mem _ hd', hs⟩
      · rintro (h | ⟨rfl, d', hd', hs⟩)
        · exact .inl h
        · rcases List.mem_cons.1 hd' with rfl | hd''
          · rw [hsrc] at hs; cases hs
          · exact .inr ⟨rfl, d', hd'', hs⟩
    | node v0 =>
      simp only [hsrc]
      have hv0 : v0 < bound := validDep_node (hval d (List.mem_cons_self _ _)) hsrc
      rw [ih _ (by simpa [pushTo_length] using hlen) hval' v y]
      rw [pushTo_mem i (by omega) y v]
      constructor
      · rintro ((h | ⟨rfl, rfl⟩) | ⟨rfl, d', hd', hs⟩)
        · exact .inl h
        · exact .inr ⟨rfl, d, List.mem_cons_self _ _, hsrc⟩
        · exact .inr ⟨rfl, d', List.mem_cons_of_mem _ hd', hs⟩
      · rintro (h | ⟨rfl, d', hd', hs⟩)
        · exact .inl (.inl h)
        · rcases List.mem_cons.1 hd' with rfl | hd''
          · rw [hsrc] at hs
            cases hs
            exact .inl (.inr ⟨rfl, rfl⟩)
          · exact .inr ⟨rfl, d', hd'', hs⟩

end Quaigh

namespace Quaigh

theorem build_pi_mem (nbIn : Nat) :
    ∀ (gs : List Gate) (i : Nat) (fv : FanoutView),
      fv.pi_fanout.length = nbIn →
      gatesWF nbIn i gs = true →
      ∀ j y, y ∈ (FanoutView.build i gs fv).pi_fanout.getD j [] ↔
        y ∈ fv.pi_fanout.getD j [] ∨
          ∃ k g, gs.get? k = some g ∧ y = i + k ∧
            ∃ d ∈ g.dependencies, d.src = .input j := by
  intro gs
  induction gs with
  | nil =>
    intro i fv _ _ j y
    rw [FanoutView.build]
    simp
  | cons g gs ih =>
    intro i fv hlen hwf j y
    rw [gatesWF, Bool.and_eq_true] at hwf
    rw [FanoutView.build]
    rw [ih (i + 1) _ (by rw [addDeps_pi_length]; exact hlen) hwf.2 j y]
    rw [addDeps_pi_mem i nbIn i g.dependencies fv hlen (List.all_eq_true.1 hwf.1) j y]
    constructor
    · rintro ((h | ⟨rfl, d, hd, hs⟩) | ⟨k, g', hk, rfl, d, hd, hs⟩)
      · exact .inl h
      · exact .inr ⟨0, g, rfl, by omega, d, hd, hs⟩
      · exact .inr ⟨k + 1, g', hk, by omega, d, hd, hs⟩
    · rintro (h | ⟨k, g', hk, rfl, d, hd, hs⟩)
      · exact .inl (.inl h)
      · cases k with
        | zero =>
          cases Option.some_inj.1 hk
          exact .inl (.inr ⟨by omega, d, hd, hs⟩)
        | succ k =>
          exact .inr ⟨k, g', hk, by omega, d, hd, hs⟩

theorem build_node_mem (nbIn : Nat) :
    ∀ (gs : List Gate) (i : Nat) (fv : FanoutView),
      i + gs.length ≤ fv.node_fanout.length →
      gatesWF nbIn i gs = true →
      ∀ v y, y ∈ (FanoutView.build i gs fv).node_fanout.getD v [] ↔
        y ∈ fv.node_fanout.getD v [] ∨
          ∃ k g, gs.get? k = some g ∧ y = i + k ∧
            ∃ d ∈ g.dependencies, d.src = .node v := by
  intro gs
  induction gs with
  | nil =>
    intro i fv _ _ v y
    rw [FanoutView.build]
    simp
  | cons g gs ih =>
    intro i fv hlen hwf v y
    rw [gatesWF, Bool.and_eq_true] at hwf
    rw [FanoutView.build]
    have hlen' : (i + 1) + gs.length ≤ (FanoutView.addDeps i g.dependencies fv).node_fanout.length := by
      rw [addDeps_node_length]
      simp only [List.length_cons] at hlen
      omega
    rw [ih (i + 1) _ hlen' hwf.2 v y]
    have hbound : i ≤ fv.node_fanout.length := by
      simp only [List.length_cons] at hlen
      omega
    rw [addDeps_node_mem i nbIn i g.dependencies fv hbound (List.all_eq_true.1 hwf.1) v y]
    constructor
    · rintro ((h | ⟨rfl, d, hd, hs⟩) | ⟨k, g', hk, rfl, d, hd, hs⟩)
      · exact .inl h
      · exact .inr ⟨0, g, rfl, by omega, d, hd, hs⟩
      · exact .inr ⟨k + 1, g', hk, by omega, d, hd, hs⟩
    · rintro (h | ⟨k, g', hk, rfl, d, hd, hs⟩)
      · exact .inl (.inl h)
      · cases k with
        | zero =>
          cases Option.some_inj.1 hk
          exact .inl (.inr ⟨by omega, d, hd, hs⟩)
        | succ k =>
          exact .inr ⟨k, g', hk, by omega, d, hd, hs⟩

theorem replicate_getD_nil (n j : Nat) :
    (List.replicate n ([] : List Nat)).getD j [] = [] := by
  induction n generalizing j with
  | zero => cases j <;> rfl
  | succ n ih =>
    cases j with
    | zero => rfl
    | succ j => exact ih j

/-- Membership characterization of the per-input fanout lists of
`FanoutView::new` on a well-formed network. -/
theorem new_pi_mem {ntk : Network} (h : ntk.wellFormed = true) (j y : Nat) :
    y ∈ (FanoutView.new ntk).pi_fanout.getD j [] ↔
      ∃ g, ntk.gates.get? y = some g ∧ ∃ d ∈ g.dependencies, d.src = .input j := by
  rw [Network.wellFormed, Bool.and_eq_true] at h
  unfold FanoutView.new
  rw [build_pi_mem ntk.nbInputs ntk.gates 0 _ (by simp) h.1 j y]
  rw [replicate_getD_nil]
  simp only [List.not_mem_nil, false_or]
  constructor
  · rintro ⟨k, g, hk, rfl, hd⟩
    exact ⟨g, by simpa using hk, hd⟩
  · rintro ⟨g, hg, hd⟩
    exact ⟨y, g, hg, by omega, hd⟩

/-- Membership characterization of the per-node fanout lists of
`FanoutView::new` on a well-formed network. -/
theorem new_node_mem {ntk : Network} (h : ntk.wellFormed = true) (v y : Nat) :
    y ∈ (FanoutView.new ntk).node_fanout.getD v [] ↔
      ∃ g, ntk.gates.get? y = some g ∧ ∃ d ∈ g.dependencies, d.src = .node v := by
  have h' := h
  rw [Network.wellFormed, Bool.and_eq_true] at h
  unfold FanoutView.new
  rw [build_node_mem ntk.nbInputs ntk.gates 0 _ (by simp [Network.nbNodes]) h.1 v y]
  rw [replicate_getD_nil]
  simp only [List.not_mem_nil, false_or]
  constructor
  · rintro ⟨k, g, hk, rfl, hd⟩
    exact ⟨g, by simpa using hk, hd⟩
  · rintro ⟨g, hg, hd⟩
    exact ⟨y, g, hg, by omega, hd⟩

/-- Each member of a node's fanout list is a live node index strictly above
the source node (dependencies point downward). -/
theorem new_node_fanout_bounds {ntk : Network} (h : ntk.wellFormed = true)
    (v f : Nat) (hf : f ∈ (FanoutView.new ntk).node_fanout.getD v []) :
    f < ntk.nbNodes ∧ v < f := by
  obtain ⟨g, hg, d, hd, hs⟩ := (new_node_mem h v f).1 hf
  refine ⟨get?_some_lt hg, ?_⟩
  exact validDep_node (wellFormed_deps h hg d hd) hs

/-- Each member of an input's fanout list is a live node index. -/
theorem new_pi_fanout_bounds {ntk : Network} (h : ntk.wellFormed = true)
    (j f : Nat) (hf : f ∈ (FanoutView.new ntk).pi_fanout.getD j []) :
    f < ntk.nbNodes := by
  obtain ⟨g, hg, _, _, _⟩ := (new_pi_mem h j f).1 hf
  exact get?_some_lt hg

/-- C4: fanout round-trip on well-formed networks.  Forward: every
non-constant dependency `d` of node `n` records `n` in `fanouts(d)`.
Converse: every `n` in `fanouts(s)` has a dependency with the same source as
`s`, independently of polarity. -/
theorem fanout_round_trip (ntk : Network) (h : ntk.wellFormed = true) :
    (∀ (n : Nat) (g : Gate), ntk.gates.get? n = some g →
      ∀ d ∈ g.dependencies, d.is_constant = false →
        n ∈ (FanoutView.new ntk).fanouts d) ∧
    (∀ (s : Signal) (n : Nat), n ∈ (FanoutView.new ntk).fanouts s →
      ∃ g, ntk.gates.get? n = some g ∧ ∃ d ∈ g.dependencies, d.src = s.src) := by
  constructor
  · intro n g hg d hd hc
    cases hsrc : d.src with
    | const => rw [Signal.is_constant, hsrc] at hc; cases hc
    | input j =>
      rw [FanoutView.fanouts, hsrc]
      exact (new_pi_mem h j n).2 ⟨g, hg, d, hd, hsrc⟩
    | node v =>
      rw [FanoutView.fanouts, hsrc]
      exact (new_node_mem h v n).2 ⟨g, hg, d, hd, hsrc⟩
  · intro s n hn
    cases hsrc : s.src with
    | const => rw [FanoutView.fanouts, hsrc] at hn; cases hn
    | input j =>
      rw [FanoutView.fanouts, hsrc] at hn
      obtain ⟨g, hg, d, hd, hs⟩ := (new_pi_mem h j n).1 hn
      exact ⟨g, hg, d, hd, hs⟩
    | node v =>
      rw [FanoutView.fanouts, hsrc] at hn
      obtain ⟨g, hg, d, hd, hs⟩ := (new_node_mem h v n).1 hn
      exact ⟨g, hg, d, hd, hs⟩

/-- Witness for C4 at the reference network. -/
theorem fanout_round_trip_witness :
    substNetwork.wellFormed = true ∧
    ((∀ (n : Nat) (g : Gate), substNetwork.gates.get? n = some g →
      ∀ d ∈ g.dependencies, d.is_constant = false →
        n ∈ (FanoutView.new substNetwork).fanouts d) ∧
    (∀ (s : Signal) (n : Nat), n ∈ (FanoutView.new substNetwork).fanouts s →
      ∃ g, substNetwork.gates.get? n = some g ∧
        ∃ d ∈ g.dependencies, d.src = s.src)) :=
  ⟨by decide, fanout_round_trip substNetwork (by decide)⟩

end Quaigh

namespace Quaigh

/-! ### C7: substitute_node frame property -/

/-- C7: `substitute_node` only changes the gate stored at `node_index`,
setting it to `Buf(new_signal)`; the node count, input count, output list
and every other node's gate are unchanged, and no renumbering occurs. -/
theorem substitute_node_frame (ntk : Network) (i : Nat) (s : Signal)
    (h : i < ntk.nbNodes) :
    (substitute_node ntk i s).nbNodes = ntk.nbNodes ∧
    (substitute_node ntk i s).nbInputs = ntk.nbInputs ∧
    (substitute_node ntk i s).outputs = ntk.outputs ∧
    (substitute_node ntk i s).gates.get? i = some (.buf s) ∧
    ∀ j, j ≠ i → (substitute_node ntk i s).gates.get? j = ntk.gates.get? j := by
  refine ⟨by simp [substitute_node, Network.replace, Network.nbNodes], rfl, rfl, ?_, ?_⟩
  · exact get?_set_self _ _ _ h
  · intro j hj
    exact get?_set_ne _ _ _ _ fun hh => hj hh.symm

/-- Witness for C7 at the reference network. -/
theorem substitute_node_frame_witness :
    1 < substNetwork.nbNodes ∧
    ((substitute_node substNetwork 1 (Signal.ofInput 2)).nbNodes = substNetwork.nbNodes ∧
    (substitute_node substNetwork 1 (Signal.ofInput 2)).nbInputs = substNetwork.nbInputs ∧
    (substitute_node substNetwork 1 (Signal.ofInput 2)).outputs = substNetwork.outputs ∧
    (substitute_node substNetwork 1 (Signal.ofInput 2)).gates.get? 1 =
      some (.buf (Signal.ofInput 2)) ∧
    ∀ j, j ≠ 1 → (substitute_node substNetwork 1 (Signal.ofInput 2)).gates.get? j =
      substNetwork.gates.get? j) :=
  ⟨by decide, substitute_node_frame substNetwork 1 (Signal.ofInput 2) (by decide)⟩

/-! ### C3: the reference substitution scenarios -/

/-- C3: on the reference network (5 nodes, output `f5`), substituting `f2`
(node 1) by `x3` and canonicalizing leaves 4 nodes; substituting `f5`
(node 4) by `f3` (node 2), canonicalizing and cleaning up leaves 1 node. -/
theorem reference_substitution_scenarios :
    substNetwork.nbNodes = 5 ∧
    (make_canonical (substitute_node substNetwork 1 (Signal.ofInput 2))).nbNodes = 4 ∧
    (cleanup (make_canonical (substitute_node substNetwork 4 (Signal.ofNode 2)))).nbNodes = 1 := by
  exact ⟨by decide, by decide, by decide⟩

end Quaigh


namespace Quaigh

/-! ### Step equations for the level builders -/

theorem foldFanins_nil (go : Nat → LevelState → Except Err (Nat × LevelState))
    (fl : Nat → Except Err Nat) (lv : Nat) (st : LevelState) :
    foldFanins go fl [] lv st = .ok (lv, st) := rfl

theorem foldFanins_cons_const {d : Signal} (h : d.src = .const)
    (go : Nat → LevelState → Except Err (Nat × LevelState))
    (fl : Nat → Except Err Nat) (ds : List Signal) (lv : Nat) (st : LevelState) :
    foldFanins go fl (d :: ds) lv st = foldFanins go fl ds lv st := by
  rw [foldFanins, h]

theorem foldFanins_cons_input {d : Signal} {i : Nat} (h : d.src = .input i)
    (go : Nat → LevelState → Except Err (Nat × LevelState))
    (fl : Nat → Except Err Nat) (ds : List Signal) (lv : Nat) (st : LevelState) :
    foldFanins go fl (d :: ds) lv st =
      match fl i with
      | .ok v => foldFanins go fl ds (max lv v) st
      | .error e => .error e := by
  rw [foldFanins, h]

theorem foldFanins_cons_node {d : Signal} {v : Nat} (h : d.src = .node v)
    (go : Nat → LevelState → Except Err (Nat × LevelState))
    (fl : Nat → Except Err Nat) (ds : List Signal) (lv : Nat) (st : LevelState) :
    foldFanins go fl (d :: ds) lv st =
      match go v st with
      | .ok r => foldFanins go fl ds (max lv r.1) r.2
      | .error e => .error e := by
  rw [foldFanins, h]

theorem tableLevel_none (i : Nat) : tableLevel none i = .ok 0 := rfl

theorem tableLevel_some (t : List Nat) (i : Nat) :
    tableLevel (some t) i =
      match t.get? i with
      | some v => .ok v
      | none => .error .panic := rfl

theorem updateF_zero (ntk : Network) (piLv : Option (List Nat)) (cb : Bool)
    (node : Nat) (st : LevelState) :
    updateF ntk piLv cb 0 node st = .error .panic := rfl

theorem updateF_mem (ntk : Network) (piLv : Option (List Nat)) (cb : Bool)
    {node : Nat} {st : LevelState} (h : node ∈ st.2) (fuel : Nat) :
    updateF ntk piLv cb (fuel + 1) node st =
      match st.1.get? node with
      | some l => .ok (l, st)
      | none => .error .panic := by
  rw [updateF, if_pos h]

theorem updateF_new (ntk : Network) (piLv : Option (List Nat)) (cb : Bool)
    {node : Nat} {st : LevelState} (h : node ∉ st.2) (fuel : Nat) :
    updateF ntk piLv cb (fuel + 1) node st =
      match ntk.gates.get? node with
      | none => .error .panic
      | some g =>
        match foldFanins (updateF ntk piLv cb fuel) (tableLevel piLv)
            g.dependencies 0 (st.1, node :: st.2) with
        | .error e => .error e
        | .ok (lv, st2) =>
          if node < st2.1.length then
            .ok (lv + levelInc cb g, (st2.1.set node (lv + levelInc cb g), st2.2))
          else .error .panic := by
  rw [updateF, if_neg h]

theorem buildLoop_nil (ntk : Network) (piLv : Option (List Nat)) (cb : Bool)
    (st : LevelState) : buildLoop ntk piLv cb [] st = .ok st := rfl

theorem buildLoop_cons (ntk : Network) (piLv : Option (List Nat)) (cb : Bool)
    (o : Signal) (os : List Signal) (st : LevelState) :
    buildLoop ntk piLv cb (o :: os) st =
      match outVar o with
      | .error e => .error e
      | .ok v =>
        match updateF ntk piLv cb (ntk.nbNodes + 1) v st with
        | .error e => .error e
        | .ok r => buildLoop ntk piLv cb os r.2 := by
  rw [buildLoop]

theorem findPoAux_nil (v k : Nat) : findPoAux v [] k = .ok none := rfl

theorem findPoAux_cons (v : Nat) (o : Signal) (os : List Signal) (k : Nat) :
    findPoAux v (o :: os) k =
      match outVar o with
      | .error e => .error e
      | .ok w => if w = v then .ok (some k) else findPoAux v os (k + 1) := by
  rw [findPoAux]

theorem addFanoutLevels_none (ntk : Network) (sig : Signal) :
    addFanoutLevels ntk none sig = .ok 0 := by
  rw [addFanoutLevels.eq_def]

theorem addFanoutLevels_const {sig : Signal} (h : sig.src = .const)
    (ntk : Network) (poLv : Option (List Nat)) :
    addFanoutLevels ntk poLv sig = .ok 0 := by
  rw [addFanoutLevels.eq_def, h]
  cases poLv <;> rfl

theorem addFanoutLevels_input {sig : Signal} {j : Nat} (h : sig.src = .input j)
    (ntk : Network) (poLv : Option (List Nat)) :
    addFanoutLevels ntk poLv sig = .ok 0 := by
  rw [addFanoutLevels.eq_def, h]
  cases poLv <;> rfl

theorem addFanoutLevels_node {sig : Signal} {v : Nat} (h : sig.src = .node v)
    (ntk : Network) (t : List Nat) :
    addFanoutLevels ntk (some t) sig =
      match findPoAux v ntk.outputs 0 with
      | .error e => .error e
      | .ok (some po) => tableLevel (some t) po
      | .ok none => .ok 0 := by
  rw [addFanoutLevels.eq_def, h]

theorem foldFanouts_nil (go : Nat → LevelState → Except Err (Nat × LevelState))
    (lv : Nat) (st : LevelState) : foldFanouts go [] lv st = .ok (lv, st) := rfl

theorem foldFanouts_cons (go : Nat → LevelState → Except Err (Nat × LevelState))
    (f : Nat) (fs : List Nat) (lv : Nat) (st : LevelState) :
    foldFanouts go (f :: fs) lv st =
      match go f st with
      | .ok r => foldFanouts go fs (max lv r.1) r.2
      | .error e => .error e := by
  rw [foldFanouts]

theorem rupdateNode_zero (ntk : Network) (fv : FanoutView)
    (poLv : Option (List Nat)) (cb : Bool) (node : Nat) (st : LevelState) :
    rupdateNode ntk fv poLv cb 0 node st = .error .panic := rfl

theorem rupdateNode_mem (ntk : Network) (fv : FanoutView)
    (poLv : Option (List Nat)) (cb : Bool) {node : Nat} {st : LevelState}
    (h : node ∈ st.2) (fuel : Nat) :
    rupdateNode ntk fv poLv cb (fuel + 1) node st =
      match st.1.get? node with
      | some l => .ok (l, st)
      | none => .error .panic := by
  rw [rupdateNode, if_pos h]

theorem rupdateNode_new (ntk : Network) (fv : FanoutView)
    (poLv : Option (List Nat)) (cb : Bool) {node : Nat} {st : LevelState}
    (h : node ∉ st.2) (fuel : Nat) :
    rupdateNode ntk fv poLv cb (fuel + 1) node st =
      match addFanoutLevels ntk poLv (ntk.node node) with
      | .error e => .error e
      | .ok r =>
        match foldFanouts (rupdateNode ntk fv poLv cb fuel)
            (fv.fanouts (ntk.node node)) r (st.1, node :: st.2) with
        | .error e => .error e
        | .ok (lv, st2) =>
          match ntk.gates.get? node with
          | none => .error .panic
          | some g =>
            if node < st2.1.length then
              .ok (lv + levelInc cb g, (st2.1.set node (lv + levelInc cb g), st2.2))
            else .error .panic := by
  rw [rupdateNode, if_neg h]

theorem rbuildLoop_nil (ntk : Network) (fv : FanoutView)
    (poLv : Option (List Nat)) (cb : Bool) (fuel : Nat) (st : LevelState) :
    rbuildLoop ntk fv poLv cb fuel [] st = .ok st := rfl

theorem rbuildLoop_cons (ntk : Network) (fv : FanoutView)
    (poLv : Option (List Nat)) (cb : Bool) (fuel : Nat) (pi : Nat)
    (pis : List Nat) (st : LevelState) :
    rbuildLoop ntk fv poLv cb fuel (pi :: pis) st =
      match rupdateSig ntk fv poLv cb fuel (ntk.input pi) st with
      | .error e => .error e
      | .ok r => rbuildLoop ntk fv poLv cb fuel pis r.2 := by
  rw [rbuildLoop]

end Quaigh

namespace Quaigh

/-! ### Value-specific step equations -/

theorem foldFanins_input_ok {d : Signal} {i : Nat} {fl : Nat → Except Err Nat}
    {v : Nat} (h : d.src = .input i) (hf : fl i = .ok v)
    (go : Nat → LevelState → Except Err (Nat × LevelState))
    (ds : List Signal) (lv : Nat) (st : LevelState) :
    foldFanins go fl (d :: ds) lv st = foldFanins go fl ds (max lv v) st := by
  simp only [foldFanins, h, hf]

theorem foldFanins_input_err {d : Signal} {i : Nat} {fl : Nat → Except Err Nat}
    {e : Err} (h : d.src = .input i) (hf : fl i = .error e)
    (go : Nat → LevelState → Except Err (Nat × LevelState))
    (ds : List Signal) (lv : Nat) (st : LevelState) :
    foldFanins go fl (d :: ds) lv st = .error e := by
  simp only [foldFanins, h, hf]

theorem foldFanins_node_ok {d : Signal} {v : Nat}
    {go : Nat → LevelState → Except Err (Nat × LevelState)}
    {st : LevelState} {r : Nat × LevelState}
    (h : d.src = .node v) (hg : go v st = .ok r)
    (fl : Nat → Except Err Nat) (ds : List Signal) (lv : Nat) :
    foldFanins go fl (d :: ds) lv st = foldFanins go fl ds (max lv r.1) r.2 := by
  simp only [foldFanins, h, hg]

theorem foldFanins_node_err {d : Signal} {v : Nat}
    {go : Nat → LevelState → Except Err (Nat × LevelState)}
    {st : LevelState} {e : Err}
    (h : d.src = .node v) (hg : go v st = .error e)
    (fl : Nat → Except Err Nat) (ds : List Signal) (lv : Nat) :
    foldFanins go fl (d :: ds) lv st = .error e := by
  simp only [foldFanins, h, hg]

theorem updateF_mem_ok {ntk : Network} {piLv : Option (List Nat)} {cb : Bool}
    {node : Nat} {st : LevelState} {l : Nat}
    (h : node ∈ st.2) (hl : st.1.get? node = some l) (fuel : Nat) :
    updateF ntk piLv cb (fuel + 1) node st = .ok (l, st) := by
  simp only [updateF, if_pos h, hl]

theorem updateF_new_noGate {ntk : Network} {piLv : Option (List Nat)} {cb : Bool}
    {node : Nat} {st : LevelState}
    (h : node ∉ st.2) (hg : ntk.gates.get? node = none) (fuel : Nat) :
    updateF ntk piLv cb (fuel + 1) node st = .error .panic := by
  simp only [updateF, if_neg h, hg]

theorem updateF_new_foldErr {ntk : Network} {piLv : Option (List Nat)} {cb : Bool}
    {node : Nat} {st : LevelState} {g : Gate} {e : Err}
    (h : node ∉ st.2) (hg : ntk.gates.get? node = some g) (fuel : Nat)
    (hf : foldFanins (updateF ntk piLv cb fuel) (tableLevel piLv)
      g.dependencies 0 (st.1, node :: st.2) = .error e) :
    updateF ntk piLv cb (fuel + 1) node st = .error e := by
  simp only [updateF, if_neg h, hg, hf]

theorem updateF_new_foldOk {ntk : Network} {piLv : Option (List Nat)} {cb : Bool}
    {node : Nat} {st : LevelState} {g : Gate} {lv : Nat} {st2 : LevelState}
    (h : node ∉ st.2) (hg : ntk.gates.get? node = some g) (fuel : Nat)
    (hf : foldFanins (updateF ntk piLv cb fuel) (tableLevel piLv)
      g.dependencies 0 (st.1, node :: st.2) = .ok (lv, st2)) :
    updateF ntk piLv cb (fuel + 1) node st =
      if node < st2.1.length then
        .ok (lv + levelInc cb g, (st2.1.set node (lv + levelInc cb g), st2.2))
      else .error .panic := by
  simp only [updateF, if_neg h, hg, hf]

theorem buildLoop_cons_varErr {o : Signal} {e : Err} (ho : outVar o = .error e)
    (ntk : Network) (piLv : Option (List Nat)) (cb : Bool)
    (os : List Signal) (st : LevelState) :
    buildLoop ntk piLv cb (o :: os) st = .error e := by
  simp only [buildLoop, ho]

theorem buildLoop_cons_updErr {ntk : Network} {piLv : Option (List Nat)}
    {cb : Bool} {o : Signal} {v : Nat} {st : LevelState} {e : Err}
    (ho : outVar o = .ok v)
    (hu : updateF ntk piLv cb (ntk.nbNodes + 1) v st = .error e)
    (os : List Signal) :
    buildLoop ntk piLv cb (o :: os) st = .error e := by
  simp only [buildLoop, ho, hu]

theorem buildLoop_cons_ok {ntk : Network} {piLv : Option (List Nat)}
    {cb : Bool} {o : Signal} {v : Nat} {st : LevelState} {r : Nat × LevelState}
    (ho : outVar o = .ok v)
    (hu : updateF ntk piLv cb (ntk.nbNodes + 1) v st = .ok r)
    (os : List Signal) :
    buildLoop ntk piLv cb (o :: os) st = buildLoop ntk piLv cb os r.2 := by
  simp only [buildLoop, ho, hu]

theorem findPoAux_cons_err {o : Signal} {e : Err} (ho : outVar o = .error e)
    (v : Nat) (os : List Signal) (k : Nat) :
    findPoAux v (o :: os) k = .error e := by
  simp only [findPoAux, ho]

theorem findPoAux_cons_hit {o : Signal} {v w : Nat} (ho : outVar o = .ok w)
    (hw : w = v) (os : List Signal) (k : Nat) :
    findPoAux v (o :: os) k = .ok (some k) := by
  simp only [findPoAux, ho, if_pos hw]

theorem findPoAux_cons_miss {o : Signal} {v w : Nat} (ho : outVar o = .ok w)
    (hw : ¬w = v) (os : List Signal) (k : Nat) :
    findPoAux v (o :: os) k = findPoAux v os (k + 1) := by
  simp only [findPoAux, ho, if_neg hw]

theorem addFanoutLevels_node_err {sig : Signal} {v : Nat} {ntk : Network}
    {e : Err} (h : sig.src = .node v)
    (hp : findPoAux v ntk.outputs 0 = .error e) (t : List Nat) :
    addFanoutLevels ntk (some t) sig = .error e := by
  rw [addFanoutLevels_node h ntk t, hp]

theorem addFanoutLevels_node_found {sig : Signal} {v : Nat} {ntk : Network}
    {po : Nat} (h : sig.src = .node v)
    (hp : findPoAux v ntk.outputs 0 = .ok (some po)) (t : List Nat) :
    addFanoutLevels ntk (some t) sig = tableLevel (some t) po := by
  rw [addFanoutLevels_node h ntk t, hp]

theorem addFanoutLevels_node_absent {sig : Signal} {v : Nat} {ntk : Network}
    (h : sig.src = .node v) (hp : findPoAux v ntk.outputs 0 = .ok none)
    (t : List Nat) : addFanoutLevels ntk (some t) sig = .ok 0 := by
  rw [addFanoutLevels_node h ntk t, hp]

theorem foldFanouts_cons_ok {go : Nat → LevelState → Except Err (Nat × LevelState)}
    {f : Nat} {st : LevelState} {r : Nat × LevelState} (hg : go f st = .ok r)
    (fs : List Nat) (lv : Nat) :
    foldFanouts go (f :: fs) lv st = foldFanouts go fs (max lv r.1) r.2 := by
  simp only [foldFanouts, hg]

theorem foldFanouts_cons_err {go : Nat → LevelState → Except Err (Nat × LevelState)}
    {f : Nat} {st : LevelState} {e : Err} (hg : go f st = .error e)
    (fs : List Nat) (lv : Nat) :
    foldFanouts go (f :: fs) lv st = .error e := by
  simp only [foldFanouts, hg]

theorem rupdateNode_mem_ok {ntk : Network} {fv : FanoutView}
    {poLv : Option (List Nat)} {cb : Bool} {node : Nat} {st : LevelState}
    {l : Nat} (h : node ∈ st.2) (hl : st.1.get? node = some l) (fuel : Nat) :
    rupdateNode ntk fv poLv cb (fuel + 1) node st = .ok (l, st) := by
  simp only [rupdateNode, if_pos h, hl]

theorem rupdateNode_new_addErr {ntk : Network} {fv : FanoutView}
    {poLv : Option (List Nat)} {cb : Bool} {node : Nat} {st : LevelState}
    {e : Err} (h : node ∉ st.2)
    (ha : addFanoutLevels ntk poLv (ntk.node node) = .error e) (fuel : Nat) :
    rupdateNode ntk fv poLv cb (fuel + 1) node st = .error e := by
  simp only [rupdateNode, if_neg h, ha]

theorem rupdateNode_new_foldErr {ntk : Network} {fv : FanoutView}
    {poLv : Option (List Nat)} {cb : Bool} {node : Nat} {st : LevelState}
    {r : Nat} {e : Err} (h : node ∉ st.2)
    (ha : addFanoutLevels ntk poLv (ntk.node node) = .ok r) (fuel : Nat)
    (hf : foldFanouts (rupdateNode ntk fv poLv cb fuel)
      (fv.fanouts (ntk.node node)) r (st.1, node :: st.2) = .error e) :
    rupdateNode ntk fv poLv cb (fuel + 1) node st = .error e := by
  simp only [rupdateNode, if_neg h, ha, hf]

theorem rupdateNode_new_noGate {ntk : Network} {fv : FanoutView}
    {poLv : Option (List Nat)} {cb : Bool} {node : Nat} {st : LevelState}
    {r lv : Nat} {st2 : LevelState} (h : node ∉ st.2)
    (ha : addFanoutLevels ntk poLv (ntk.node node) = .ok r) (fuel : Nat)
    (hf : foldFanouts (rupdateNode ntk fv poLv cb fuel)
      (fv.fanouts (ntk.node node)) r (st.1, node :: st.2) = .ok (lv, st2))
    (hg : ntk.gates.get? node = none) :
    rupdateNode ntk fv poLv cb (fuel + 1) node st = .error .panic := by
  simp only [rupdateNode, if_neg h, ha, hf, hg]

theorem rupdateNode_new_main {ntk : Network} {fv : FanoutView}
    {poLv : Option (List Nat)} {cb : Bool} {node : Nat} {st : LevelState}
    {r lv : Nat} {st2 : LevelState} {g : Gate} (h : node ∉ st.2)
    (ha : addFanoutLevels ntk poLv (ntk.node node) = .ok r) (fuel : Nat)
    (hf : foldFanouts (rupdateNode ntk fv poLv cb fuel)
      (fv.fanouts (ntk.node node)) r (st.1, node :: st.2) = .ok (lv, st2))
    (hg : ntk.gates.get? node = some g) :
    rupdateNode ntk fv poLv cb (fuel + 1) node st =
      if node < st2.1.length then
        .ok (lv + levelInc cb g, (st2.1.set node (lv + levelInc cb g), st2.2))
      else .error .panic := by
  simp only [rupdateNode, if_neg h, ha, hf, hg]

theorem rupdateSig_addErr {ntk : Network} {poLv : Option (List Nat)}
    {sig : Signal} {e : Err} (ha : addFanoutLevels ntk poLv sig = .error e)
    (fv : FanoutView) (cb : Bool) (fuel : Nat) (st : LevelState) :
    rupdateSig ntk fv poLv cb fuel sig st = .error e := by
  simp only [rupdateSig, ha]

theorem rupdateSig_ok {ntk : Network} {poLv : Option (List Nat)}
    {sig : Signal} {r : Nat} (ha : addFanoutLevels ntk poLv sig = .ok r)
    (fv : FanoutView) (cb : Bool) (fuel : Nat) (st : LevelState) :
    rupdateSig ntk fv poLv cb fuel sig st =
      foldFanouts (rupdateNode ntk fv poLv cb fuel) (fv.fanouts sig) r st := by
  simp only [rupdateSig, ha]

theorem rbuildLoop_cons_err {ntk : Network} {fv : FanoutView}
    {poLv : Option (List Nat)} {cb : Bool} {fuel : Nat} {pi : Nat}
    {st : LevelState} {e : Err}
    (hu : rupdateSig ntk fv poLv cb fuel (ntk.input pi) st = .error e)
    (pis : List Nat) :
    rbuildLoop ntk fv poLv cb fuel (pi :: pis) st = .error e := by
  simp only [rbuildLoop, hu]

theorem rbuildLoop_cons_ok {ntk : Network} {fv : FanoutView}
    {poLv : Option (List Nat)} {cb : Bool} {fuel : Nat} {pi : Nat}
    {st : LevelState} {r : Nat × LevelState}
    (hu : rupdateSig ntk fv poLv cb fuel (ntk.input pi) st = .ok r)
    (pis : List Nat) :
    rbuildLoop ntk fv poLv cb fuel (pi :: pis) st =
      rbuildLoop ntk fv poLv cb fuel pis r.2 := by
  simp only [rbuildLoop, hu]

end Quaigh

namespace Quaigh

/-! ### C6: the length assertions fail exactly on mismatched tables -/

theorem error_ne_assert_transfer {A B : Type} {e : Err}
    (h : (Except.error e : Except Err A) ≠ .error .assertFail) :
    (Except.error e : Except Err B) ≠ .error .assertFail := by
  intro hh
  injection hh with h1
  subst h1
  exact h rfl

theorem tableLevel_ne_assert (tbl : Option (List Nat)) (i : Nat) :
    tableLevel tbl i ≠ .error .assertFail := by
  cases tbl with
  | none => rw [tableLevel_none]; simp
  | some t =>
    rw [tableLevel_some]
    cases h : t.get? i <;> simp

theorem outVar_ne_assert (s : Signal) : outVar s ≠ .error .assertFail := by
  obtain ⟨src, pol⟩ := s
  cases src <;> simp [outVar]

theorem foldFanins_ne_assert (go : Nat → LevelState → Except Err (Nat × LevelState))
    (fl : Nat → Except Err Nat)
    (hgo : ∀ v st, go v st ≠ .error .assertFail)
    (hfl : ∀ i, fl i ≠ .error .assertFail) :
    ∀ (ds : List Signal) (lv : Nat) (st : LevelState),
      foldFanins go fl ds lv st ≠ .error .assertFail := by
  intro ds
  induction ds with
  | nil => intro lv st; rw [foldFanins_nil]; simp
  | cons d ds ih =>
    intro lv st
    cases hsrc : d.src with
    | const =>
      rw [foldFanins_cons_const hsrc]
      exact ih lv st
    | input i =>
      cases hf : fl i with
      | ok v => rw [foldFanins_input_ok hsrc hf]; exact ih (max lv v) st
      | error e =>
        rw [foldFanins_input_err hsrc hf]
        have hne := hfl i
        rw [hf] at hne
        exact error_ne_assert_transfer hne
    | node v =>
      cases hg : go v st with
      | ok r => rw [foldFanins_node_ok hsrc hg]; exact ih (max lv r.1) r.2
      | error e =>
        rw [foldFanins_node_err hsrc hg]
        have hne := hgo v st
        rw [hg] at hne
        exact error_ne_assert_transfer hne

theorem updateF_ne_assert (ntk : Network) (piLv : Option (List Nat)) (cb : Bool) :
    ∀ (fuel node : Nat) (st : LevelState),
      updateF ntk piLv cb fuel node st ≠ .error .assertFail := by
  intro fuel
  induction fuel with
  | zero => intro node st; rw [updateF_zero]; simp
  | succ fuel ih =>
    intro node st
    by_cases hv : node ∈ st.2
    · cases hl : st.1.get? node with
      | some l => rw [updateF_mem_ok hv hl fuel]; simp
      | none =>
        rw [updateF_mem ntk piLv cb hv fuel, hl]
        simp
    · cases hg : ntk.gates.get? node with
      | none => rw [updateF_new_noGate hv hg fuel]; simp
      | some g =>
        cases hf : foldFanins (updateF ntk piLv cb fuel) (tableLevel piLv)
            g.dependencies 0 (st.1, node :: st.2) with
        | error e =>
          rw [updateF_new_foldErr hv hg fuel hf]
          have hne := foldFanins_ne_assert (updateF ntk piLv cb fuel) (tableLevel piLv)
            ih (tableLevel_ne_assert piLv) g.dependencies 0 (st.1, node :: st.2)
          rw [hf] at hne
          exact error_ne_assert_transfer hne
        | ok r =>
          obtain ⟨lv, st2⟩ := r
          rw [updateF_new_foldOk hv hg fuel hf]
          by_cases hlt : node < st2.1.length <;> simp [hlt]

theorem buildLoop_ne_assert (ntk : Network) (piLv : Option (List Nat)) (cb : Bool) :
    ∀ (os : List Signal) (st : LevelState),
      buildLoop ntk piLv cb os st ≠ .error .assertFail := by
  intro os
  induction os with
  | nil => intro st; rw [buildLoop_nil]; simp
  | cons o os ih =>
    intro st
    cases ho : outVar o with
    | error e =>
      rw [buildLoop_cons_varErr ho]
      have hne := outVar_ne_assert o
      rw [ho] at hne
      exact error_ne_assert_transfer hne
    | ok v =>
      cases hu : updateF ntk piLv cb (ntk.nbNodes + 1) v st with
      | ok r => rw [buildLoop_cons_ok ho hu]; exact ih r.2
      | error e =>
        rw [buildLoop_cons_updErr ho hu]
        have hne := updateF_ne_assert ntk piLv cb (ntk.nbNodes + 1) v st
        rw [hu] at hne
        exact error_ne_assert_transfer hne

theorem findPoAux_ne_assert (v : Nat) :
    ∀ (os : List Signal) (k : Nat), findPoAux v os k ≠ .error .assertFail := by
  intro os
  induction os with
  | nil => intro k; rw [findPoAux_nil]; simp
  | cons o os ih =>
    intro k
    cases ho : outVar o with
    | error e =>
      rw [findPoAux_cons_err ho]
      have hne := outVar_ne_assert o
      rw [ho] at hne
      exact error_ne_assert_transfer hne
    | ok w =>
      by_cases hw : w = v
      · rw [findPoAux_cons_hit ho hw]; simp
      · rw [findPoAux_cons_miss ho hw]; exact ih (k + 1)

theorem addFanoutLevels_ne_assert (ntk : Network) (poLv : Option (List Nat))
    (sig : Signal) : addFanoutLevels ntk poLv sig ≠ .error .assertFail := by
  cases poLv with
  | none => rw [addFanoutLevels_none]; simp
  | some t =>
    cases hsrc : sig.src with
    | const => rw [addFanoutLevels_const hsrc]; simp
    | input j => rw [addFanoutLevels_input hsrc]; simp
    | node v =>
      cases hp : findPoAux v ntk.outputs 0 with
      | error e =>
        rw [addFanoutLevels_node_err hsrc hp t]
        have hne := findPoAux_ne_assert v ntk.outputs 0
        rw [hp] at hne
        exact error_ne_assert_transfer hne
      | ok idx =>
        cases idx with
        | none => rw [addFanoutLevels_node_absent hsrc hp t]; simp
        | some po =>
          rw [addFanoutLevels_node_found hsrc hp t]
          exact tableLevel_ne_assert (some t) po

theorem foldFanouts_ne_assert (go : Nat → LevelState → Except Err (Nat × LevelState))
    (hgo : ∀ v st, go v st ≠ .error .assertFail) :
    ∀ (fs : List Nat) (lv : Nat) (st : LevelState),
      foldFanouts go fs lv st ≠ .error .assertFail := by
  intro fs
  induction fs with
  | nil => intro lv st; rw [foldFanouts_nil]; simp
  | cons f fs ih =>
    intro lv st
    cases hg : go f st with
    | ok r => rw [foldFanouts_cons_ok hg]; exact ih (max lv r.1) r.2
    | error e =>
      rw [foldFanouts_cons_err hg]
      have hne := hgo f st
      rw [hg] at hne
      exact error_ne_assert_transfer hne

theorem rupdateNode_ne_assert (ntk : Network) (fv : FanoutView)
    (poLv : Option (List Nat)) (cb : Bool) :
    ∀ (fuel node : Nat) (st : LevelState),
      rupdateNode ntk fv poLv cb fuel node st ≠ .error .assertFail := by
  intro fuel
  induction fuel with
  | zero => intro node st; rw [rupdateNode_zero]; simp
  | succ fuel ih =>
    intro node st
    by_cases hv : node ∈ st.2
    · cases hl : st.1.get? node with
      | some l => rw [rupdateNode_mem_ok hv hl fuel]; simp
      | none => rw [rupdateNode_mem ntk fv poLv cb hv fuel, hl]; simp
    · cases ha : addFanoutLevels ntk poLv (ntk.node node) with
      | error e =>
        rw [rupdateNode_new_addErr hv ha fuel]
        have hne := addFanoutLevels_ne_assert ntk poLv (ntk.node node)
        rw [ha] at hne
        exact error_ne_assert_transfer hne
      | ok r =>
        cases hf : foldFanouts (rupdateNode ntk fv poLv cb fuel)
            (fv.fanouts (ntk.node node)) r (st.1, node :: st.2) with
        | error e =>
          rw [rupdateNode_new_foldErr hv ha fuel hf]
          have hne := foldFanouts_ne_assert (rupdateNode ntk fv poLv cb fuel) ih
            (fv.fanouts (ntk.node node)) r (st.1, node :: st.2)
          rw [hf] at hne
          exact error_ne_assert_transfer hne
        | ok r2 =>
          obtain ⟨lv, st2⟩ := r2
          cases hg : ntk.gates.get? node with
          | none => rw [rupdateNode_new_noGate hv ha fuel hf hg]; simp
          | some g =>
            rw [rupdateNode_new_main hv ha fuel hf hg]
            by_cases hlt : node < st2.1.length <;> simp [hlt]

theorem rupdateSig_ne_assert (ntk : Network) (fv : FanoutView)
    (poLv : Option (List Nat)) (cb : Bool) (fuel : Nat) (sig : Signal)
    (st : LevelState) : rupdateSig ntk fv poLv cb fuel sig st ≠ .error .assertFail := by
  cases ha : addFanoutLevels ntk poLv sig with
  | error e =>
    rw [rupdateSig_addErr ha]
    have hne := addFanoutLevels_ne_assert ntk poLv sig
    rw [ha] at hne
    exact error_ne_assert_transfer hne
  | ok r =>
    rw [rupdateSig_ok ha]
    exact foldFanouts_ne_assert _ (rupdateNode_ne_assert ntk fv poLv cb fuel) _ r st

theorem rbuildLoop_ne_assert (ntk : Network) (fv : FanoutView)
    (poLv : Option (List Nat)) (cb : Bool) (fuel : Nat) :
    ∀ (pis : List Nat) (st : LevelState),
      rbuildLoop ntk fv poLv cb fuel pis st ≠ .error .assertFail := by
  intro pis
  induction pis with
  | nil => intro st; rw [rbuildLoop_nil]; simp
  | cons pi pis ih =>
    intro st
    cases hu : rupdateSig ntk fv poLv cb fuel (ntk.input pi) st with
    | ok r => rw [rbuildLoop_cons_ok hu]; exact ih r.2
    | error e =>
      rw [rbuildLoop_cons_err hu]
      have hne := rupdateSig_ne_assert ntk fv poLv cb fuel (ntk.input pi) st
      rw [hu] at hne
      exact error_ne_assert_transfer hne

end Quaigh

namespace Quaigh

theorem buildLevels_ne_assert (ntk : Network) (piLv : Option (List Nat))
    (cb : Bool) : buildLevels ntk piLv cb ≠ .error .assertFail :=
  buildLoop_ne_assert ntk piLv cb ntk.outputs (List.replicate ntk.nbNodes 0, [])

theorem rbuildLevels_ne_assert (ntk : Network) (fv : FanoutView)
    (poLv : Option (List Nat)) (cb : Bool) :
    rbuildLevels ntk fv poLv cb ≠ .error .assertFail :=
  rbuildLoop_ne_assert ntk fv poLv cb (ntk.nbNodes + 1) (List.range ntk.nbInputs)
    (List.replicate ntk.nbNodes 0, [])

theorem buildLevels_project_ne_assert (ntk : Network) (piLv : Option (List Nat))
    (cb : Bool) :
    (match buildLevels ntk piLv cb with
      | .ok st => (.ok st.1 : Except Err (List Nat))
      | .error e => .error e) ≠ .error .assertFail := by
  cases hb : buildLevels ntk piLv cb with
  | ok st => simp
  | error e =>
    have hne := buildLevels_ne_assert ntk piLv cb
    rw [hb] at hne
    have he : e ≠ Err.assertFail := fun hh => hne (by rw [hh])
    simp [he]

theorem rbuildLevels_project_ne_assert (ntk : Network) (fv : FanoutView)
    (poLv : Option (List Nat)) (cb : Bool) :
    (match rbuildLevels ntk fv poLv cb with
      | .ok st => (.ok st.1 : Except Err (List Nat))
      | .error e => .error e) ≠ .error .assertFail := by
  cases hb : rbuildLevels ntk fv poLv cb with
  | ok st => simp
  | error e =>
    have hne := rbuildLevels_ne_assert ntk fv poLv cb
    rw [hb] at hne
    have he : e ≠ Err.assertFail := fun hh => hne (by rw [hh])
    simp [he]

/-- C6: the level computations abort through their length assertion exactly
when a table is supplied whose length mismatches the input (forward) or
output (reverse) count; a missing or matching table never triggers this
failure. -/
theorem level_assert_exactly (ntk : Network) (fv : FanoutView)
    (piLv poLv : Option (List Nat)) (cb cbr : Option Bool) :
    (computeLevelsCfg ntk piLv cb = .error .assertFail ↔
      ∃ t, piLv = some t ∧ t.length ≠ ntk.nbInputs) ∧
    (computeReverseLevelsCfg ntk fv poLv cbr = .error .assertFail ↔
      ∃ t, poLv = some t ∧ t.length ≠ ntk.nbOutputs) := by
  constructor
  · cases piLv with
    | none =>
      have hc : ((none : Option (List Nat)).all fun t => t.length == ntk.nbInputs) = true := rfl
      rw [computeLevelsCfg, if_pos hc]
      constructor
      · intro h
        exact absurd h (buildLevels_project_ne_assert ntk none (cb.getD true))
      · rintro ⟨t, ht, _⟩; cases ht
    | some t =>
      by_cases hl : t.length = ntk.nbInputs
      · have hc : ((some t).all fun t => t.length == ntk.nbInputs) = true := by
          show (t.length == ntk.nbInputs) = true
          exact beq_iff_eq.2 hl
        rw [computeLevelsCfg, if_pos hc]
        constructor
        · intro h
          exact absurd h (buildLevels_project_ne_assert ntk (some t) (cb.getD true))
        · rintro ⟨t', ht', hlen⟩
          cases Option.some_inj.1 ht'
          exact absurd hl hlen
      · have hc : ((some t).all fun t => t.length == ntk.nbInputs) = false := by
          show (t.length == ntk.nbInputs) = false
          exact beq_false_of_ne hl
        rw [computeLevelsCfg, if_neg (by rw [hc]; simp)]
        exact ⟨fun _ => ⟨t, rfl, hl⟩, fun _ => rfl⟩
  · cases poLv with
    | none =>
      have hc : ((none : Option (List Nat)).all fun t => t.length == ntk.nbOutputs) = true := rfl
      rw [computeReverseLevelsCfg, if_pos hc]
      constructor
      · intro h
        exact absurd h (rbuildLevels_project_ne_assert ntk fv none (cbr.getD true))
      · rintro ⟨t, ht, _⟩; cases ht
    | some t =>
      by_cases hl : t.length = ntk.nbOutputs
      · have hc : ((some t).all fun t => t.length == ntk.nbOutputs) = true := by
          show (t.length == ntk.nbOutputs) = true
          exact beq_iff_eq.2 hl
        rw [computeReverseLevelsCfg, if_pos hc]
        constructor
        · intro h
          exact absurd h (rbuildLevels_project_ne_assert ntk fv (some t) (cbr.getD true))
        · rintro ⟨t', ht', hlen⟩
          cases Option.some_inj.1 ht'
          exact absurd hl hlen
      · have hc : ((some t).all fun t => t.length == ntk.nbOutputs) = false := by
          show (t.length == ntk.nbOutputs) = false
          exact beq_false_of_ne hl
        rw [computeReverseLevelsCfg, if_neg (by rw [hc]; simp)]
        exact ⟨fun _ => ⟨t, rfl, hl⟩, fun _ => rfl⟩

end Quaigh

namespace Quaigh

/-! ### C1: forward level correctness -/

theorem get?_eq_getD {l : List Nat} {n : Nat} (h : n < l.length) :
    l.get? n = some (l.getD n 0) := by
  obtain ⟨a, ha⟩ := get?_lt_isSome l n h
  rw [ha, List.getD_eq_getD_get?, ha]
  rfl

theorem getD_replicate {α : Type} (a : α) (n m : Nat) :
    (List.replicate n a).getD m a = a := by
  induction n generalizing m with
  | zero => cases m <;> rfl
  | succ n ih =>
    cases m with
    | zero => rfl
    | succ m => exact ih m

theorem gateD_of_get? {ntk : Network} {n : Nat} {g : Gate}
    (h : ntk.gates.get? n = some g) : ntk.gateD n = g := by
  rw [Network.gateD, List.getD_eq_getD_get?, h]
  rfl

theorem is_var_src {s : Signal} (h : s.is_var = true) : ∃ v, s.src = .node v := by
  cases hs : s.src with
  | node v => exact ⟨v, rfl⟩
  | const => rw [Signal.is_var, hs] at h; cases h
  | input j => rw [Signal.is_var, hs] at h; cases h

theorem not_is_var_src {s : Signal} (h : s.is_var = false) :
    ∀ v, s.src ≠ .node v := by
  intro v hs
  rw [Signal.is_var, hs] at h
  cases h

theorem outVar_ok {s : Signal} {v : Nat} (h : s.src = .node v) :
    outVar s = .ok v := by
  simp only [outVar, h]

theorem outVar_err {s : Signal} (h : s.is_var = false) :
    outVar s = .error .panic := by
  cases hs : s.src with
  | node v => exact absurd hs (not_is_var_src h v)
  | const => simp only [outVar, hs]
  | input j => simp only [outVar, hs]

theorem tableLevel_ok {piLv : Option (List Nat)} {i : Nat}
    (h : ∀ t, piLv = some t → i < t.length) :
    tableLevel piLv i = .ok (arrivalLv piLv i) := by
  cases piLv with
  | none => rfl
  | some t =>
    rw [tableLevel_some, get?_eq_getD (h t rfl)]
    rfl

theorem faninContrib_const {piLv : Option (List Nat)} {levels : List Nat}
    {d : Signal} (h : d.src = .const) : faninContrib piLv levels d = 0 := by
  simp only [faninContrib, h]

theorem faninContrib_input {piLv : Option (List Nat)} {levels : List Nat}
    {d : Signal} {i : Nat} (h : d.src = .input i) :
    faninContrib piLv levels d = arrivalLv piLv i := by
  simp only [faninContrib, h]

theorem faninContrib_node {piLv : Option (List Nat)} {levels : List Nat}
    {d : Signal} {v : Nat} (h : d.src = .node v) :
    faninContrib piLv levels d = levels.getD v 0 := by
  simp only [faninContrib, h]

end Quaigh

namespace Quaigh

theorem foldFanins_spec (ntk : Network) (piLv : Option (List Nat)) (cb : Bool)
    (hpi : ∀ t, piLv = some t → t.length = ntk.nbInputs)
    (fuel node : Nat) (S : List Nat)
    (hS : ∀ s ∈ S, node < s)
    (hIH : ∀ (c : Nat) (levels visited : List Nat),
      c < node →
      levels.length = ntk.nbNodes →
      GoodF ntk piLv cb levels visited (node :: S) →
      (∀ s ∈ node :: S, c < s) →
      ∃ r levels' visited',
        updateF ntk piLv cb fuel c (levels, visited) = .ok (r, (levels', visited')) ∧
        levels'.length = ntk.nbNodes ∧
        (∀ m ∈ visited, m ∈ visited') ∧
        c ∈ visited' ∧
        GoodF ntk piLv cb levels' visited' (node :: S) ∧
        (∀ m ∈ visited, levels'.getD m 0 = levels.getD m 0) ∧
        (∀ m, m ∉ visited' → levels'.getD m 0 = levels.getD m 0) ∧
        (∀ m ∈ visited', m ∉ visited → m ≤ c) ∧
        r = levels'.getD c 0) :
    ∀ (ds : List Signal), (∀ d ∈ ds, Signal.validDep node ntk.nbInputs d = true) →
    ∀ (lv : Nat) (levels visited : List Nat),
      levels.length = ntk.nbNodes →
      GoodF ntk piLv cb levels visited (node :: S) →
      ∃ lv' levels' visited',
        foldFanins (updateF ntk piLv cb fuel) (tableLevel piLv) ds lv (levels, visited) =
          .ok (lv', (levels', visited')) ∧
        levels'.length = ntk.nbNodes ∧
        (∀ m ∈ visited, m ∈ visited') ∧
        GoodF ntk piLv cb levels' visited' (node :: S) ∧
        (∀ m ∈ visited, levels'.getD m 0 = levels.getD m 0) ∧
        (∀ m, m ∉ visited' → levels'.getD m 0 = levels.getD m 0) ∧
        (∀ m ∈ visited', m ∉ visited → m < node) ∧
        (∀ d ∈ ds, ∀ w, d.src = .node w → w ∈ visited' ∧ w ∉ node :: S) ∧
        lv' = ds.foldl (fun a d => max a (faninContrib piLv levels' d)) lv := by
  intro ds
  induction ds with
  | nil =>
    intro _ lv levels visited hlen hGood
    refine ⟨lv, levels, visited, ?_, hlen, fun m hm => hm, hGood,
      fun m _ => rfl, fun m _ => rfl, fun m hm hnm => absurd hm hnm,
      fun d hd => absurd hd (List.not_mem_nil d), rfl⟩
    rw [foldFanins_nil]
  | cons d ds ih =>
    intro hval lv levels visited hlen hGood
    have hval' : ∀ d' ∈ ds, Signal.validDep node ntk.nbInputs d' = true :=
      fun d' hd' => hval d' (List.mem_cons_of_mem _ hd')
    have hvald := hval d (List.mem_cons_self _ _)
    cases hsrc : d.src with
    | const =>
      obtain ⟨lv', levels', visited', h1, h2, h3, h4, h5, h6, h7, h8, h9⟩ :=
        ih hval' lv levels visited hlen hGood
      refine ⟨lv', levels', visited', ?_, h2, h3, h4, h5, h6, h7, ?_, ?_⟩
      · rw [foldFanins_cons_const hsrc]; exact h1
      · intro d' hd' w hsw
        rcases List.mem_cons.1 hd' with rfl | hd''
        · rw [hsrc] at hsw; cases hsw
        · exact h8 d' hd'' w hsw
      · simp only [List.foldl_cons]
        rw [faninContrib_const hsrc, Nat.max_zero]
        exact h9
    | input i =>
      have hi : i < ntk.nbInputs := validDep_input hvald hsrc
      have hf : tableLevel piLv i = .ok (arrivalLv piLv i) :=
        tableLevel_ok fun t ht => by rw [hpi t ht]; exact hi
      obtain ⟨lv', levels', visited', h1, h2, h3, h4, h5, h6, h7, h8, h9⟩ :=
        ih hval' (max lv (arrivalLv piLv i)) levels visited hlen hGood
      refine ⟨lv', levels', visited', ?_, h2, h3, h4, h5, h6, h7, ?_, ?_⟩
      · rw [foldFanins_input_ok hsrc hf]; exact h1
      · intro d' hd' w hsw
        rcases List.mem_cons.1 hd' with rfl | hd''
        · rw [hsrc] at hsw; cases hsw
        · exact h8 d' hd'' w hsw
      · simp only [List.foldl_cons]
        rw [faninContrib_input hsrc]
        exact h9
    | node v =>
      have hv : v < node := validDep_node hvald hsrc
      have hcs : ∀ s ∈ node :: S, v < s := by
        intro s hs
        rcases List.mem_cons.1 hs with rfl | hs'
        · exact hv
        · exact Nat.lt_trans hv (hS s hs')
      obtain ⟨r, levels1, visited1, hu1, hu2, hu3, hu4, hu5, hu6, hu7, hu8, hu9⟩ :=
        hIH v levels visited hv hlen hGood hcs
      obtain ⟨lv', levels2, visited2, h1, h2, h3, h4, h5, h6, h7, h8, h9⟩ :=
        ih hval' (max lv r) levels1 visited1 hu2 hu5
      refine ⟨lv', levels2, visited2, ?_, h2, ?_, h4, ?_, ?_, ?_, ?_, ?_⟩
      · rw [foldFanins_node_ok hsrc hu1]; exact h1
      · exact fun m hm => h3 m (hu3 m hm)
      · intro m hm
        rw [h5 m (hu3 m hm), hu6 m hm]
      · intro m hm
        have hm1 : m ∉ visited1 := fun hx => hm (h3 m hx)
        rw [h6 m hm, hu7 m hm1]
      · intro m hm2 hmv
        by_cases hmem1 : m ∈ visited1
        · have := hu8 m hmem1 hmv
          omega
        · exact h7 m hm2 hmem1
      · intro d' hd' w hsw
        rcases List.mem_cons.1 hd' with rfl | hd''
        · have hvw : v = w := by
            rw [hsrc] at hsw
            cases hsw
            rfl
          subst hvw
          refine ⟨h3 v hu4, ?_⟩
          intro hx
          exact Nat.lt_irrefl v (hcs v hx)
        · exact h8 d' hd'' w hsw
      · simp only [List.foldl_cons]
        rw [faninContrib_node hsrc,
          show levels2.getD v 0 = r from (h5 v hu4).trans hu9.symm]
        exact h9

end Quaigh

namespace Quaigh

theorem updateF_spec (ntk : Network) (piLv : Option (List Nat)) (cb : Bool)
    (hwf : ntk.wellFormed = true)
    (hpi : ∀ t, piLv = some t → t.length = ntk.nbInputs) :
    ∀ (fuel node : Nat) (S levels visited : List Nat),
      node < ntk.nbNodes →
      node + 1 ≤ fuel →
      levels.length = ntk.nbNodes →
      GoodF ntk piLv cb levels visited S →
      (∀ s ∈ S, node < s) →
      ∃ r levels' visited',
        updateF ntk piLv cb fuel node (levels, visited) = .ok (r, (levels', visited')) ∧
        levels'.length = ntk.nbNodes ∧
        (∀ m ∈ visited, m ∈ visited') ∧
        node ∈ visited' ∧
        GoodF ntk piLv cb levels' visited' S ∧
        (∀ m ∈ visited, levels'.getD m 0 = levels.getD m 0) ∧
        (∀ m, m ∉ visited' → levels'.getD m 0 = levels.getD m 0) ∧
        (∀ m ∈ visited', m ∉ visited → m ≤ node) ∧
        r = levels'.getD node 0 := by
  intro fuel
  induction fuel with
  | zero =>
    intro node S levels visited _ hf
    exact absurd hf (by omega)
  | succ fuel ih =>
    intro node S levels visited hnode hfuel hlen hGood hS
    by_cases hv : node ∈ visited
    · have hl : levels.get? node = some (levels.getD node 0) :=
        get?_eq_getD (by rw [hlen]; exact hnode)
      refine ⟨levels.getD node 0, levels, visited, ?_, hlen, fun m hm => hm, hv, hGood,
        fun m _ => rfl, fun m _ => rfl, fun m hm hnm => absurd hm hnm, rfl⟩
      exact updateF_mem_ok hv hl fuel
    · obtain ⟨g, hg⟩ := get?_lt_isSome ntk.gates node hnode
      have hgD : ntk.gateD node = g := gateD_of_get? hg
      have hdeps := wellFormed_deps hwf hg
      have hGoodCons : GoodF ntk piLv cb levels (node :: visited) (node :: S) := by
        intro n hn hnS
        have hne : n ≠ node := fun hx => hnS (hx ▸ List.mem_cons_self _ _)
        have hn' : n ∈ visited := by
          rcases List.mem_cons.1 hn with h | h
          · exact absurd h hne
          · exact h
        have hnS' : n ∉ S := fun hx => hnS (List.mem_cons_of_mem _ hx)
        obtain ⟨q1, q2, q3⟩ := hGood n hn' hnS'
        refine ⟨q1, ?_, q3⟩
        intro d hd w hsw
        obtain ⟨w1, w2⟩ := q2 d hd w hsw
        refine ⟨List.mem_cons_of_mem _ w1, ?_⟩
        intro hx
        rcases List.mem_cons.1 hx with rfl | hx'
        · exact hv w1
        · exact w2 hx'
      obtain ⟨lv', levels2, visited2, f1, f2, f3, f4, f5, f6, f7, f8, f9⟩ :=
        foldFanins_spec ntk piLv cb hpi fuel node S hS
          (fun c levels1 visited1 hc hlen1 hGood1 hcs =>
            ih c (node :: S) levels1 visited1 (Nat.lt_trans hc hnode) (by omega)
              hlen1 hGood1 hcs)
          g.dependencies hdeps 0 levels (node :: visited) hlen hGoodCons
      have hmain := @updateF_new_foldOk ntk piLv cb node (levels, visited) g lv'
        (levels2, visited2) hv hg fuel f1
      rw [if_pos (show node < levels2.length by rw [f2]; exact hnode)] at hmain
      have hnodelen2 : node < levels2.length := by rw [f2]; exact hnode
      have hget3 : (levels2.set node (lv' + levelInc cb g)).getD node 0 =
          lv' + levelInc cb g := getD_set_self _ _ _ _ hnodelen2
      have hmono : ∀ m ∈ visited, m ∈ visited2 :=
        fun m hm => f3 m (List.mem_cons_of_mem _ hm)
      have hnodein : node ∈ visited2 := f3 node (List.mem_cons_self _ _)
      refine ⟨lv' + levelInc cb g, levels2.set node (lv' + levelInc cb g), visited2,
        hmain, ?_, hmono, hnodein, ?_, ?_, ?_, ?_, ?_⟩
      · rw [List.length_set]; exact f2
      · intro n hn hnS
        by_cases hne : n = node
        · subst hne
          refine ⟨hnode, ?_, ?_⟩
          · rw [hgD]
            intro d hd w hsw
            obtain ⟨w1, w2⟩ := f8 d hd w hsw
            exact ⟨w1, fun hx => w2 (List.mem_cons_of_mem _ hx)⟩
          · rw [hgD, hget3]
            have hcongr : depsMax piLv (levels2.set n (lv' + levelInc cb g))
                g.dependencies =
                g.dependencies.foldl (fun a d => max a (faninContrib piLv levels2 d)) 0 := by
              rw [depsMax]
              apply foldl_max_congr
              intro d hd
              cases hsd : d.src with
              | const => rw [faninContrib_const hsd, faninContrib_const hsd]
              | input i => rw [faninContrib_input hsd, faninContrib_input hsd]
              | node w =>
                rw [faninContrib_node hsd, faninContrib_node hsd]
                apply getD_set_ne
                have hwlt : w < n := validDep_node (hdeps d hd) hsd
                omega
            rw [hcongr, ← f9]
            omega
        · have hn2S : n ∉ node :: S := by
            intro hx
            rcases List.mem_cons.1 hx with h | h
            · exact hne h
            · exact hnS h
          obtain ⟨q1, q2, q3⟩ := f4 n hn hn2S
          refine ⟨q1, ?_, ?_⟩
          · intro d hd w hsw
            obtain ⟨w1, w2⟩ := q2 d hd w hsw
            exact ⟨w1, fun hx => w2 (List.mem_cons_of_mem _ hx)⟩
          · have hcongr : depsMax piLv (levels2.set node (lv' + levelInc cb g))
                (ntk.gateD n).dependencies =
                depsMax piLv levels2 (ntk.gateD n).dependencies := by
              rw [depsMax, depsMax]
              apply foldl_max_congr
              intro d hd
              cases hsd : d.src with
              | const => rw [faninContrib_const hsd, faninContrib_const hsd]
              | input i => rw [faninContrib_input hsd, faninContrib_input hsd]
              | node w =>
                rw [faninContrib_node hsd, faninContrib_node hsd]
                apply getD_set_ne
                obtain ⟨w1, w2⟩ := q2 d hd w hsd
                intro hx
                apply w2
                rw [← hx]
                exact List.mem_cons_self _ _
            have hstored : (levels2.set node (lv' + levelInc cb g)).getD n 0 =
                levels2.getD n 0 := getD_set_ne _ _ _ _ _ fun hx => hne hx.symm
            rw [hstored, hcongr]
            exact q3
      · intro m hm
        have hmn : node ≠ m := fun hx => hv (hx ▸ hm)
        rw [getD_set_ne _ _ _ _ _ hmn]
        exact f5 m (List.mem_cons_of_mem _ hm)
      · intro m hm
        have hmn : node ≠ m := fun hx => hm (hx ▸ hnodein)
        rw [getD_set_ne _ _ _ _ _ hmn]
        exact f6 m hm
      · intro m hm hmv
        by_cases hmn : m = node
        · omega
        · have hm1 : m ∉ node :: visited := by
            intro hx
            rcases List.mem_cons.1 hx with h | h
            · exact hmn h
            · exact hmv h
          have := f7 m hm hm1
          omega
      · rw [hget3]

end Quaigh

namespace Quaigh

theorem buildLoop_spec (ntk : Network) (piLv : Option (List Nat)) (cb : Bool)
    (hwf : ntk.wellFormed = true)
    (hpi : ∀ t, piLv = some t → t.length = ntk.nbInputs) :
    ∀ (os : List Signal),
      (∀ o ∈ os, Signal.validDep ntk.nbNodes ntk.nbInputs o = true) →
      (∀ o ∈ os, o.is_var = true) →
      ∀ (levels visited : List Nat),
        levels.length = ntk.nbNodes →
        GoodF ntk piLv cb levels visited [] →
        ∃ levels' visited',
          buildLoop ntk piLv cb os (levels, visited) = .ok (levels', visited') ∧
          levels'.length = ntk.nbNodes ∧
          (∀ m ∈ visited, m ∈ visited') ∧
          GoodF ntk piLv cb levels' visited' [] ∧
          (∀ m, m ∉ visited' → levels'.getD m 0 = levels.getD m 0) := by
  intro os
  induction os with
  | nil =>
    intro _ _ levels visited hlen hGood
    exact ⟨levels, visited, buildLoop_nil ntk piLv cb (levels, visited), hlen,
      fun m hm => hm, hGood, fun m _ => rfl⟩
  | cons o os ihos =>
    intro hvalid houts levels visited hlen hGood
    have hvar := houts o (List.mem_cons_self _ _)
    obtain ⟨v, hsv⟩ := is_var_src hvar
    have hov : outVar o = .ok v := outVar_ok hsv
    have hvlt : v < ntk.nbNodes :=
      validDep_node (hvalid o (List.mem_cons_self _ _)) hsv
    obtain ⟨r, levels1, visited1, u1, u2, u3, u4, u5, u6, u7, u8, u9⟩ :=
      updateF_spec ntk piLv cb hwf hpi (ntk.nbNodes + 1) v [] levels visited hvlt
        (by omega) hlen hGood (fun s hs => absurd hs (List.not_mem_nil s))
    have hstep := buildLoop_cons_ok hov u1 os
    obtain ⟨levels', visited', s1, s2, s3, s4, s5⟩ :=
      ihos (fun o' ho' => hvalid o' (List.mem_cons_of_mem _ ho'))
        (fun o' ho' => houts o' (List.mem_cons_of_mem _ ho'))
        levels1 visited1 u2 u5
    refine ⟨levels', visited', ?_, s2, ?_, s4, ?_⟩
    · rw [hstep]; exact s1
    · exact fun m hm => s3 m (u3 m hm)
    · intro m hm
      have hm1 : m ∉ visited1 := fun hx => hm (s3 m hx)
      rw [s5 m hm, u7 m hm1]

theorem buildLoop_err (ntk : Network) (piLv : Option (List Nat)) (cb : Bool)
    (hwf : ntk.wellFormed = true)
    (hpi : ∀ t, piLv = some t → t.length = ntk.nbInputs) :
    ∀ (os : List Signal),
      (∀ o ∈ os, Signal.validDep ntk.nbNodes ntk.nbInputs o = true) →
      ∀ (levels visited : List Nat),
        levels.length = ntk.nbNodes →
        GoodF ntk piLv cb levels visited [] →
        (∃ o ∈ os, o.is_var = false) →
        ∃ e, buildLoop ntk piLv cb os (levels, visited) = .error e := by
  intro os
  induction os with
  | nil =>
    intro _ levels visited _ _ hbad
    obtain ⟨o, ho, _⟩ := hbad
    exact absurd ho (List.not_mem_nil o)
  | cons o os ihos =>
    intro hvalid levels visited hlen hGood hbad
    by_cases hvo : o.is_var = true
    · obtain ⟨v, hsv⟩ := is_var_src hvo
      have hov : outVar o = .ok v := outVar_ok hsv
      have hvlt : v < ntk.nbNodes :=
        validDep_node (hvalid o (List.mem_cons_self _ _)) hsv
      obtain ⟨r, levels1, visited1, u1, u2, u3, u4, u5, u6, u7, u8, u9⟩ :=
        updateF_spec ntk piLv cb hwf hpi (ntk.nbNodes + 1) v [] levels visited hvlt
          (by omega) hlen hGood (fun s hs => absurd hs (List.not_mem_nil s))
      have hstep := buildLoop_cons_ok hov u1 os
      have hbad' : ∃ o' ∈ os, o'.is_var = false := by
        obtain ⟨o', ho', hf⟩ := hbad
        rcases List.mem_cons.1 ho' with rfl | ho''
        · rw [hvo] at hf; cases hf
        · exact ⟨o', ho'', hf⟩
      obtain ⟨e, herr⟩ :=
        ihos (fun o' ho' => hvalid o' (List.mem_cons_of_mem _ ho'))
          levels1 visited1 u2 u5 hbad'
      refine ⟨e, ?_⟩
      rw [hstep]
      exact herr
    · have hof : o.is_var = false := by
        cases hb : o.is_var with
        | false => rfl
        | true => exact absurd hb hvo
      exact ⟨.panic, buildLoop_cons_varErr (outVar_err hof) ntk piLv cb os (levels, visited)⟩

/-- C1: on a well-formed network with a well-sized (or absent) arrival
table and node-sourced outputs, the forward level traversal succeeds, and
every visited node's level equals the buffer-aware increment plus the
maximum over its dependencies of the fanin's own level (node), its arrival
level (input, 0 without a table), or 0 (constant); unvisited nodes keep the
default value 0. -/
theorem forward_levels_spec (ntk : Network) (piLv : Option (List Nat)) (cb : Bool)
    (hwf : ntk.wellFormed = true)
    (hpi : ∀ t, piLv = some t → t.length = ntk.nbInputs)
    (hout : ∀ o ∈ ntk.outputs, o.is_var = true) :
    ∃ levels visited,
      buildLevels ntk piLv cb = .ok (levels, visited) ∧
      (∀ n ∈ visited,
        n < ntk.nbNodes ∧
        levels.getD n 0 =
          levelInc cb (ntk.gateD n) + depsMax piLv levels (ntk.gateD n).dependencies) ∧
      (∀ n, n ∉ visited → levels.getD n 0 = 0) := by
  obtain ⟨levels, visited, h1, h2, h3, h4, h5⟩ :=
    buildLoop_spec ntk piLv cb hwf hpi ntk.outputs (wellFormed_outputs hwf) hout
      (List.replicate ntk.nbNodes 0) [] (by simp)
      (fun n hn => absurd hn (List.not_mem_nil n))
  refine ⟨levels, visited, h1, ?_, ?_⟩
  · intro n hn
    obtain ⟨q1, _, q3⟩ := h4 n hn (List.not_mem_nil n)
    exact ⟨q1, q3⟩
  · intro n hn
    rw [h5 n hn]
    exact getD_replicate 0 ntk.nbNodes n

/-- Witness for C1 at the level-view test network. -/
theorem forward_levels_spec_witness :
    levelNetwork.wellFormed = true ∧
    (∀ o ∈ levelNetwork.outputs, o.is_var = true) ∧
    (∃ levels visited,
      buildLevels levelNetwork none true = .ok (levels, visited) ∧
      (∀ n ∈ visited,
        n < levelNetwork.nbNodes ∧
        levels.getD n 0 =
          levelInc true (levelNetwork.gateD n) +
            depsMax none levels (levelNetwork.gateD n).dependencies) ∧
      (∀ n, n ∉ visited → levels.getD n 0 = 0)) :=
  ⟨by decide, by decide,
    forward_levels_spec levelNetwork none true (by decide)
      (fun t ht => nomatch ht) (by decide)⟩

/-- C10: on a well-formed network with a well-sized (or absent) arrival
table, the forward level build is panic-free exactly when every
primary-output signal references a node; a network with a constant or
primary-input output is outside the guarded domain (the build calls
`output(po).var()` without checking the source kind). -/
theorem forward_build_guard (ntk : Network) (piLv : Option (List Nat)) (cb : Bool)
    (hwf : ntk.wellFormed = true)
    (hpi : ∀ t, piLv = some t → t.length = ntk.nbInputs) :
    (∃ st, buildLevels ntk piLv cb = .ok st) ↔
      ∀ o ∈ ntk.outputs, o.is_var = true := by
  constructor
  · rintro ⟨st, hok⟩
    by_contra hno
    push_neg at hno
    obtain ⟨o, ho, hv⟩ := hno
    have hof : o.is_var = false := by
      cases hb : o.is_var with
      | false => rfl
      | true => exact absurd hb hv
    obtain ⟨e, herr⟩ :=
      buildLoop_err ntk piLv cb hwf hpi ntk.outputs (wellFormed_outputs hwf)
        (List.replicate ntk.nbNodes 0) [] (by simp)
        (fun n hn => absurd hn (List.not_mem_nil n)) ⟨o, ho, hof⟩
    rw [buildLevels, herr] at hok
    exact Except.noConfusion hok
  · intro hall
    obtain ⟨levels, visited, h1, h2, h3, h4, h5⟩ :=
      buildLoop_spec ntk piLv cb hwf hpi ntk.outputs (wellFormed_outputs hwf) hall
        (List.replicate ntk.nbNodes 0) [] (by simp)
        (fun n hn => absurd hn (List.not_mem_nil n))
    exact ⟨(levels, visited), h1⟩

/-- Witness for C10 at the level-view test network. -/
theorem forward_build_guard_witness :
    levelNetwork.wellFormed = true ∧
    ((∃ st, buildLevels levelNetwork none true = .ok st) ↔
      ∀ o ∈ levelNetwork.outputs, o.is_var = true) :=
  ⟨by decide,
    forward_build_guard levelNetwork none true (by decide) (fun t ht => nomatch ht)⟩

end Quaigh

namespace Quaigh

/-! ### C2: reverse level correctness -/

theorem findPoAux_ok (v : Nat) :
    ∀ (os : List Signal) (k : Nat), (∀ o ∈ os, o.is_var = true) →
      ∃ res, findPoAux v os k = .ok res ∧
        ∀ po, res = some po → po < k + os.length := by
  intro os
  induction os with
  | nil =>
    intro k _
    exact ⟨none, findPoAux_nil v k, fun po h => nomatch h⟩
  | cons o os ih =>
    intro k hall
    obtain ⟨w, hsw⟩ := is_var_src (hall o (List.mem_cons_self _ _))
    have how : outVar o = .ok w := outVar_ok hsw
    by_cases hwv : w = v
    · refine ⟨some k, findPoAux_cons_hit how hwv os k, ?_⟩
      intro po hpo
      cases Option.some_inj.1 hpo
      simp
    · obtain ⟨res, hres, hbound⟩ :=
        ih (k + 1) (fun o' ho' => hall o' (List.mem_cons_of_mem _ ho'))
      refine ⟨res, ?_, ?_⟩
      · rw [findPoAux_cons_miss how hwv os k]
        exact hres
      · intro po hpo
        have := hbound po hpo
        simp only [List.length_cons]
        omega

theorem addFanoutLevels_ok (ntk : Network) (poLv : Option (List Nat))
    (hpo : ∀ t, poLv = some t → t.length = ntk.nbOutputs)
    (houts : poLv = none ∨ ∀ o ∈ ntk.outputs, o.is_var = true) (sig : Signal) :
    ∃ r, addFanoutLevels ntk poLv sig = .ok r := by
  cases hpl : poLv with
  | none => exact ⟨0, addFanoutLevels_none ntk sig⟩
  | some t =>
    cases hsrc : sig.src with
    | const => exact ⟨0, addFanoutLevels_const hsrc ntk (some t)⟩
    | input j => exact ⟨0, addFanoutLevels_input hsrc ntk (some t)⟩
    | node v =>
      have hall : ∀ o ∈ ntk.outputs, o.is_var = true := by
        rcases houts with h | h
        · rw [hpl] at h; cases h
        · exact h
      obtain ⟨res, hres, hbound⟩ := findPoAux_ok v ntk.outputs 0 hall
      cases res with
      | none => exact ⟨0, addFanoutLevels_node_absent hsrc hres t⟩
      | some po =>
        have hpo' : po < t.length := by
          have h1 := hbound po rfl
          have h2 := hpo t hpl
          rw [h2]
          simpa [Network.nbOutputs] using h1
        refine ⟨arrivalLv (some t) po, ?_⟩
        rw [addFanoutLevels_node_found hsrc hres t]
        exact tableLevel_ok fun t' ht' => by cases Option.some_inj.1 ht'; exact hpo'

theorem foldFanouts_spec (ntk : Network) (fv : FanoutView)
    (poLv : Option (List Nat)) (cb : Bool) (fuel node : Nat) (S : List Nat)
    (hS : ∀ s ∈ S, s < node)
    (hIH : ∀ (c : Nat) (levels visited : List Nat),
      node < c → c < ntk.nbNodes →
      levels.length = ntk.nbNodes →
      GoodR ntk fv poLv cb levels visited (node :: S) →
      (∀ s ∈ node :: S, s < c) →
      ∃ r levels' visited',
        rupdateNode ntk fv poLv cb fuel c (levels, visited) = .ok (r, (levels', visited')) ∧
        levels'.length = ntk.nbNodes ∧
        (∀ m ∈ visited, m ∈ visited') ∧
        c ∈ visited' ∧
        GoodR ntk fv poLv cb levels' visited' (node :: S) ∧
        (∀ m ∈ visited, levels'.getD m 0 = levels.getD m 0) ∧
        (∀ m, m ∉ visited' → levels'.getD m 0 = levels.getD m 0) ∧
        (∀ m ∈ visited', m ∉ visited → c ≤ m) ∧
        r = levels'.getD c 0) :
    ∀ (fs : List Nat), (∀ f ∈ fs, f < ntk.nbNodes ∧ node < f) →
    ∀ (lv : Nat) (levels visited : List Nat),
      levels.length = ntk.nbNodes →
      GoodR ntk fv poLv cb levels visited (node :: S) →
      ∃ lv' levels' visited',
        foldFanouts (rupdateNode ntk fv poLv cb fuel) fs lv (levels, visited) =
          .ok (lv', (levels', visited')) ∧
        levels'.length = ntk.nbNodes ∧
        (∀ m ∈ visited, m ∈ visited') ∧
        GoodR ntk fv poLv cb levels' visited' (node :: S) ∧
        (∀ m ∈ visited, levels'.getD m 0 = levels.getD m 0) ∧
        (∀ m, m ∉ visited' → levels'.getD m 0 = levels.getD m 0) ∧
        (∀ m ∈ visited', m ∉ visited → node < m) ∧
        (∀ f ∈ fs, f ∈ visited' ∧ f ∉ node :: S) ∧
        lv' = fs.foldl (fun a f => max a (levels'.getD f 0)) lv := by
  intro fs
  induction fs with
  | nil =>
    intro _ lv levels visited hlen hGood
    refine ⟨lv, levels, visited, ?_, hlen, fun m hm => hm, hGood,
      fun m _ => rfl, fun m _ => rfl, fun m hm hnm => absurd hm hnm,
      fun f hf => absurd hf (List.not_mem_nil f), rfl⟩
    rw [foldFanouts_nil]
  | cons f fs ih =>
    intro hfs lv levels visited hlen hGood
    obtain ⟨hflt, hfgt⟩ := hfs f (List.mem_cons_self _ _)
    have hfs' : ∀ f' ∈ fs, f' < ntk.nbNodes ∧ node < f' :=
      fun f' hf' => hfs f' (List.mem_cons_of_mem _ hf')
    have hcs : ∀ s ∈ node :: S, s < f := by
      intro s hs
      rcases List.mem_cons.1 hs with rfl | hs'
      · exact hfgt
      · exact Nat.lt_trans (hS s hs') hfgt
    obtain ⟨r, levels1, visited1, hu1, hu2, hu3, hu4, hu5, hu6, hu7, hu8, hu9⟩ :=
      hIH f levels visited hfgt hflt hlen hGood hcs
    obtain ⟨lv', levels2, visited2, h1, h2, h3, h4, h5, h6, h7, h8, h9⟩ :=
      ih hfs' (max lv r) levels1 visited1 hu2 hu5
    refine ⟨lv', levels2, visited2, ?_, h2, ?_, h4, ?_, ?_, ?_, ?_, ?_⟩
    · rw [foldFanouts_cons_ok hu1]; exact h1
    · exact fun m hm => h3 m (hu3 m hm)
    · intro m hm
      rw [h5 m (hu3 m hm), hu6 m hm]
    · intro m hm
      have hm1 : m ∉ visited1 := fun hx => hm (h3 m hx)
      rw [h6 m hm, hu7 m hm1]
    · intro m hm2 hmv
      by_cases hmem1 : m ∈ visited1
      · have := hu8 m hmem1 hmv
        omega
      · exact h7 m hm2 hmem1
    · intro f' hf' 
      rcases List.mem_cons.1 hf' with rfl | hf''
      · refine ⟨h3 f' (hu4), ?_⟩
        intro hx
        exact Nat.lt_irrefl f' (hcs f' hx)
      · exact h8 f' hf''
    · simp only [List.foldl_cons]
      rw [show levels2.getD f 0 = r from (h5 f hu4).trans hu9.symm]
      exact h9

end Quaigh

namespace Quaigh

theorem fanouts_node_bounds {ntk : Network} (h : ntk.wellFormed = true) (v : Nat) :
    ∀ f ∈ (FanoutView.new ntk).fanouts (ntk.node v), f < ntk.nbNodes ∧ v < f :=
  fun f hf => new_node_fanout_bounds h v f hf

theorem fanouts_input_bounds {ntk : Network} (h : ntk.wellFormed = true) (j : Nat) :
    ∀ f ∈ (FanoutView.new ntk).fanouts (ntk.input j), f < ntk.nbNodes :=
  fun f hf => new_pi_fanout_bounds h j f hf

theorem rupdateNode_spec (ntk : Network) (poLv : Option (List Nat)) (cb : Bool)
    (hwf : ntk.wellFormed = true)
    (hpo : ∀ t, poLv = some t → t.length = ntk.nbOutputs)
    (houts : poLv = none ∨ ∀ o ∈ ntk.outputs, o.is_var = true) :
    ∀ (fuel node : Nat) (S levels visited : List Nat),
      node < ntk.nbNodes →
      ntk.nbNodes - node ≤ fuel →
      levels.length = ntk.nbNodes →
      GoodR ntk (FanoutView.new ntk) poLv cb levels visited S →
      (∀ s ∈ S, s < node) →
      ∃ r levels' visited',
        rupdateNode ntk (FanoutView.new ntk) poLv cb fuel node (levels, visited) =
          .ok (r, (levels', visited')) ∧
        levels'.length = ntk.nbNodes ∧
        (∀ m ∈ visited, m ∈ visited') ∧
        node ∈ visited' ∧
        GoodR ntk (FanoutView.new ntk) poLv cb levels' visited' S ∧
        (∀ m ∈ visited, levels'.getD m 0 = levels.getD m 0) ∧
        (∀ m, m ∉ visited' → levels'.getD m 0 = levels.getD m 0) ∧
        (∀ m ∈ visited', m ∉ visited → node ≤ m) ∧
        r = levels'.getD node 0 := by
  intro fuel
  induction fuel with
  | zero =>
    intro node S levels visited hnode hf
    exact absurd hf (by omega)
  | succ fuel ih =>
    intro node S levels visited hnode hfuel hlen hGood hS
    by_cases hv : node ∈ visited
    · have hl : levels.get? node = some (levels.getD node 0) :=
        get?_eq_getD (by rw [hlen]; exact hnode)
      refine ⟨levels.getD node 0, levels, visited, ?_, hlen, fun m hm => hm, hv, hGood,
        fun m _ => rfl, fun m _ => rfl, fun m hm hnm => absurd hm hnm, rfl⟩
      exact rupdateNode_mem_ok hv hl fuel
    · obtain ⟨g, hg⟩ := get?_lt_isSome ntk.gates node hnode
      have hgD : ntk.gateD node = g := gateD_of_get? hg
      obtain ⟨r0, har⟩ := addFanoutLevels_ok ntk poLv hpo houts (ntk.node node)
      have hfs := fanouts_node_bounds hwf node
      have hGoodCons : GoodR ntk (FanoutView.new ntk) poLv cb levels
          (node :: visited) (node :: S) := by
        intro n hn hnS
        have hne : n ≠ node := fun hx => hnS (hx ▸ List.mem_cons_self _ _)
        have hn' : n ∈ visited := by
          rcases List.mem_cons.1 hn with h | h
          · exact absurd h hne
          · exact h
        have hnS' : n ∉ S := fun hx => hnS (List.mem_cons_of_mem _ hx)
        obtain ⟨q1, q2, q3⟩ := hGood n hn' hnS'
        refine ⟨q1, ?_, q3⟩
        intro f hf
        obtain ⟨w1, w2⟩ := q2 f hf
        refine ⟨List.mem_cons_of_mem _ w1, ?_⟩
        intro hx
        rcases List.mem_cons.1 hx with rfl | hx'
        · exact hv w1
        · exact w2 hx'
      obtain ⟨lv', levels2, visited2, f1, f2, f3, f4, f5, f6, f7, f8, f9⟩ :=
        foldFanouts_spec ntk (FanoutView.new ntk) poLv cb fuel node S hS
          (fun c levels1 visited1 hc hclt hlen1 hGood1 hcs =>
            ih c (node :: S) levels1 visited1 hclt (by omega) hlen1 hGood1 hcs)
          ((FanoutView.new ntk).fanouts (ntk.node node)) hfs
          r0 levels (node :: visited) hlen hGoodCons
      have hmain := @rupdateNode_new_main ntk (FanoutView.new ntk) poLv cb node
        (levels, visited) r0 lv' (levels2, visited2) g hv har fuel f1 hg
      rw [if_pos (show node < levels2.length by rw [f2]; exact hnode)] at hmain
      have hnodelen2 : node < levels2.length := by rw [f2]; exact hnode
      have hget3 : (levels2.set node (lv' + levelInc cb g)).getD node 0 =
          lv' + levelInc cb g := getD_set_self _ _ _ _ hnodelen2
      have hmono : ∀ m ∈ visited, m ∈ visited2 :=
        fun m hm => f3 m (List.mem_cons_of_mem _ hm)
      have hnodein : node ∈ visited2 := f3 node (List.mem_cons_self _ _)
      refine ⟨lv' + levelInc cb g, levels2.set node (lv' + levelInc cb g), visited2,
        hmain, ?_, hmono, hnodein, ?_, ?_, ?_, ?_, ?_⟩
      · rw [List.length_set]; exact f2
      · intro n hn hnS
        by_cases hne : n = node
        · subst hne
          refine ⟨hnode, ?_, ?_⟩
          · intro f hf
            obtain ⟨w1, w2⟩ := f8 f hf
            exact ⟨w1, fun hx => w2 (List.mem_cons_of_mem _ hx)⟩
          · refine ⟨r0, har, ?_⟩
            rw [hgD, hget3]
            have hcongr : fanoutMax (levels2.set n (lv' + levelInc cb g))
                ((FanoutView.new ntk).fanouts (ntk.node n)) r0 =
                ((FanoutView.new ntk).fanouts (ntk.node n)).foldl
                  (fun a f => max a (levels2.getD f 0)) r0 := by
              rw [fanoutMax]
              apply foldl_max_congr
              intro f hf
              apply getD_set_ne
              have := (hfs f hf).2
              omega
            rw [hcongr, ← f9]
            omega
        · have hn2S : n ∉ node :: S := by
            intro hx
            rcases List.mem_cons.1 hx with h | h
            · exact hne h
            · exact hnS h
          obtain ⟨q1, q2, q3⟩ := f4 n hn hn2S
          refine ⟨q1, ?_, ?_⟩
          · intro f hf
            obtain ⟨w1, w2⟩ := q2 f hf
            exact ⟨w1, fun hx => w2 (List.mem_cons_of_mem _ hx)⟩
          · obtain ⟨rn, hrn, heq⟩ := q3
            refine ⟨rn, hrn, ?_⟩
            have hcongr : fanoutMax (levels2.set node (lv' + levelInc cb g))
                ((FanoutView.new ntk).fanouts (ntk.node n)) rn =
                fanoutMax levels2 ((FanoutView.new ntk).fanouts (ntk.node n)) rn := by
              rw [fanoutMax, fanoutMax]
              apply foldl_max_congr
              intro f hf
              apply getD_set_ne
              obtain ⟨w1, w2⟩ := q2 f hf
              intro hx
              apply w2
              rw [← hx]
              exact List.mem_cons_self _ _
            have hstored : (levels2.set node (lv' + levelInc cb g)).getD n 0 =
                levels2.getD n 0 := getD_set_ne _ _ _ _ _ fun hx => hne hx.symm
            rw [hstored, hcongr]
            exact heq
      · intro m hm
        have hmn : node ≠ m := fun hx => hv (hx ▸ hm)
        rw [getD_set_ne _ _ _ _ _ hmn]
        exact f5 m (List.mem_cons_of_mem _ hm)
      · intro m hm
        have hmn : node ≠ m := fun hx => hm (hx ▸ hnodein)
        rw [getD_set_ne _ _ _ _ _ hmn]
        exact f6 m hm
      · intro m hm hmv
        by_cases hmn : m = node
        · omega
        · have hm1 : m ∉ node :: visited := by
            intro hx
            rcases List.mem_cons.1 hx with h | h
            · exact hmn h
            · exact hmv h
          have := f7 m hm hm1
          omega
      · rw [hget3]

end Quaigh

namespace Quaigh

theorem foldFanoutsTop_spec (ntk : Network) (poLv : Option (List Nat)) (cb : Bool)
    (hwf : ntk.wellFormed = true)
    (hpo : ∀ t, poLv = some t → t.length = ntk.nbOutputs)
    (houts : poLv = none ∨ ∀ o ∈ ntk.outputs, o.is_var = true) :
    ∀ (fs : List Nat), (∀ f ∈ fs, f < ntk.nbNodes) →
    ∀ (lv : Nat) (levels visited : List Nat),
      levels.length = ntk.nbNodes →
      GoodR ntk (FanoutView.new ntk) poLv cb levels visited [] →
      ∃ lv' levels' visited',
        foldFanouts (rupdateNode ntk (FanoutView.new ntk) poLv cb (ntk.nbNodes + 1))
          fs lv (levels, visited) = .ok (lv', (levels', visited')) ∧
        levels'.length = ntk.nbNodes ∧
        (∀ m ∈ visited, m ∈ visited') ∧
        GoodR ntk (FanoutView.new ntk) poLv cb levels' visited' [] ∧
        (∀ m, m ∉ visited' → levels'.getD m 0 = levels.getD m 0) := by
  intro fs
  induction fs with
  | nil =>
    intro _ lv levels visited hlen hGood
    refine ⟨lv, levels, visited, ?_, hlen, fun m hm => hm, hGood, fun m _ => rfl⟩
    rw [foldFanouts_nil]
  | cons f fs ih =>
    intro hfs lv levels visited hlen hGood
    have hflt := hfs f (List.mem_cons_self _ _)
    obtain ⟨r, levels1, visited1, hu1, hu2, hu3, hu4, hu5, hu6, hu7, hu8, hu9⟩ :=
      rupdateNode_spec ntk poLv cb hwf hpo houts (ntk.nbNodes + 1) f [] levels visited
        hflt (by omega) hlen hGood (fun s hs => absurd hs (List.not_mem_nil s))
    obtain ⟨lv', levels2, visited2, h1, h2, h3, h4, h5⟩ :=
      ih (fun f' hf' => hfs f' (List.mem_cons_of_mem _ hf'))
        (max lv r) levels1 visited1 hu2 hu5
    refine ⟨lv', levels2, visited2, ?_, h2, ?_, h4, ?_⟩
    · rw [foldFanouts_cons_ok hu1]; exact h1
    · exact fun m hm => h3 m (hu3 m hm)
    · intro m hm
      have hm1 : m ∉ visited1 := fun hx => hm (h3 m hx)
      rw [h5 m hm, hu7 m hm1]

theorem rbuildLoop_spec (ntk : Network) (poLv : Option (List Nat)) (cb : Bool)
    (hwf : ntk.wellFormed = true)
    (hpo : ∀ t, poLv = some t → t.length = ntk.nbOutputs)
    (houts : poLv = none ∨ ∀ o ∈ ntk.outputs, o.is_var = true) :
    ∀ (pis : List Nat) (levels visited : List Nat),
      levels.length = ntk.nbNodes →
      GoodR ntk (FanoutView.new ntk) poLv cb levels visited [] →
      ∃ levels' visited',
        rbuildLoop ntk (FanoutView.new ntk) poLv cb (ntk.nbNodes + 1) pis
          (levels, visited) = .ok (levels', visited') ∧
        levels'.length = ntk.nbNodes ∧
        (∀ m ∈ visited, m ∈ visited') ∧
        GoodR ntk (FanoutView.new ntk) poLv cb levels' visited' [] ∧
        (∀ m, m ∉ visited' → levels'.getD m 0 = levels.getD m 0) := by
  intro pis
  induction pis with
  | nil =>
    intro levels visited hlen hGood
    refine ⟨levels, visited, ?_, hlen, fun m hm => hm, hGood, fun m _ => rfl⟩
    rw [rbuildLoop_nil]
  | cons pi pis ih =>
    intro levels visited hlen hGood
    have ha : addFanoutLevels ntk poLv (ntk.input pi) = .ok 0 :=
      addFanoutLevels_input rfl ntk poLv
    obtain ⟨lv', levels1, visited1, h1, h2, h3, h4, h5⟩ :=
      foldFanoutsTop_spec ntk poLv cb hwf hpo houts
        ((FanoutView.new ntk).fanouts (ntk.input pi)) (fanouts_input_bounds hwf pi)
        0 levels visited hlen hGood
    have hsig : rupdateSig ntk (FanoutView.new ntk) poLv cb (ntk.nbNodes + 1)
        (ntk.input pi) (levels, visited) = .ok (lv', (levels1, visited1)) := by
      rw [rupdateSig_ok ha]
      exact h1
    obtain ⟨levels2, visited2, s1, s2, s3, s4, s5⟩ := ih levels1 visited1 h2 h4
    refine ⟨levels2, visited2, ?_, s2, ?_, s4, ?_⟩
    · rw [rbuildLoop_cons_ok hsig]
      exact s1
    · exact fun m hm => s3 m (h3 m hm)
    · intro m hm
      have hm1 : m ∉ visited1 := fun hx => hm (s3 m hx)
      rw [s5 m hm, h5 m hm1]

/-- C2: on a well-formed network with a well-sized (or absent) required
table (and, when a table is present, node-sourced outputs so the output
scan is defined), the reverse level traversal succeeds, and every visited
node's level equals the buffer-aware increment plus the maximum of its
reverse-contribution-as-output `r` (looked up by scanning the output list;
0 without a table and 0 when absent from the output list) and the reverse
levels of its fanout nodes; unvisited nodes keep the default value 0. -/
theorem reverse_levels_spec (ntk : Network) (poLv : Option (List Nat)) (cb : Bool)
    (hwf : ntk.wellFormed = true)
    (hpo : ∀ t, poLv = some t → t.length = ntk.nbOutputs)
    (houts : poLv = none ∨ ∀ o ∈ ntk.outputs, o.is_var = true) :
    ∃ levels visited,
      rbuildLevels ntk (FanoutView.new ntk) poLv cb = .ok (levels, visited) ∧
      (∀ n ∈ visited,
        n < ntk.nbNodes ∧
        ∃ r, addFanoutLevels ntk poLv (ntk.node n) = .ok r ∧
          levels.getD n 0 =
            levelInc cb (ntk.gateD n) +
              fanoutMax levels ((FanoutView.new ntk).fanouts (ntk.node n)) r) ∧
      (∀ n, n ∉ visited → levels.getD n 0 = 0) := by
  obtain ⟨levels, visited, h1, h2, h3, h4, h5⟩ :=
    rbuildLoop_spec ntk poLv cb hwf hpo houts (List.range ntk.nbInputs)
      (List.replicate ntk.nbNodes 0) [] (by simp)
      (fun n hn => absurd hn (List.not_mem_nil n))
  refine ⟨levels, visited, h1, ?_, ?_⟩
  · intro n hn
    obtain ⟨q1, _, q3⟩ := h4 n hn (List.not_mem_nil n)
    exact ⟨q1, q3⟩
  · intro n hn
    rw [h5 n hn]
    exact getD_replicate 0 ntk.nbNodes n

/-- Witness for C2 at the level-view test network with required levels
`[5, 1]`. -/
theorem reverse_levels_spec_witness :
    levelNetwork.wellFormed = true ∧
    (∀ o ∈ levelNetwork.outputs, o.is_var = true) ∧
    (∃ levels visited,
      rbuildLevels levelNetwork (FanoutView.new levelNetwork) (some [5, 1]) true =
        .ok (levels, visited) ∧
      (∀ n ∈ visited,
        n < levelNetwork.nbNodes ∧
        ∃ r, addFanoutLevels levelNetwork (some [5, 1]) (levelNetwork.node n) = .ok r ∧
          levels.getD n 0 =
            levelInc true (levelNetwork.gateD n) +
              fanoutMax levels
                ((FanoutView.new levelNetwork).fanouts (levelNetwork.node n)) r) ∧
      (∀ n, n ∉ visited → levels.getD n 0 = 0)) :=
  ⟨by decide, by decide,
    reverse_levels_spec levelNetwork (some [5, 1]) true (by decide)
      (fun t ht => by cases Option.some_inj.1 ht; rfl) (Or.inr (by decide))⟩

end Quaigh

namespace Quaigh

/-! ### C5: substitution followed by canonicalization shrinks the network -/

theorem isBuf_mapSigs (f : Signal → Signal) (g : Gate) :
    (Gate.mapSigs f g).isBuf = g.isBuf := by
  cases g <;> rfl

theorem dependencies_mapSigs (f : Signal → Signal) (g : Gate) :
    (Gate.mapSigs f g).dependencies = g.dependencies.map f := by
  cases g <;> rfl

theorem resolveSig_const {m : List Signal} {s : Signal} (h : s.src = .const) :
    resolveSig m s = s := by
  simp only [resolveSig, h]

theorem resolveSig_input {m : List Signal} {s : Signal} {j : Nat}
    (h : s.src = .input j) : resolveSig m s = s := by
  simp only [resolveSig, h]

theorem resolveSig_node_some {m : List Signal} {s t : Signal} {v : Nat}
    (h : s.src = .node v) (hm : m.get? v = some t) :
    resolveSig m s = ⟨t.src, xor t.pol s.pol⟩ := by
  simp only [resolveSig, h, hm]

theorem resolveMapAux_length :
    ∀ (gs : List Gate) (k : Nat) (m : List Signal),
      (resolveMapAux k gs m).length = m.length + gs.length := by
  intro gs
  induction gs with
  | nil => intro k m; simp [resolveMapAux]
  | cons g gs ih =>
    intro k m
    rw [resolveMapAux, ih]
    simp
    omega

theorem resolveMap_length (gates : List Gate) :
    (resolveMap gates).length = gates.length := by
  rw [resolveMap, resolveMapAux_length]
  simp

theorem noBufRef_ofNode {gates0 : List Gate} {k : Nat} {g : Gate}
    (hg : gates0.get? k = some g) (hnb : g.isBuf = false) :
    noBufRef gates0 (Signal.ofNode k) := by
  intro w hw g' hg'
  have hkw : k = w := by
    have : Source.node k = Source.node w := hw
    cases this
    rfl
  subst hkw
  rw [hg] at hg'
  cases Option.some_inj.1 hg'
  exact hnb

theorem resolveEntry_noBuf {gates0 : List Gate} {nbIn : Nat} {m : List Signal}
    {k : Nat} {g : Gate}
    (hm : m.length = k) (hg : gates0.get? k = some g)
    (hwfg : ∀ d ∈ g.dependencies, Signal.validDep k nbIn d = true)
    (hprev : ∀ en ∈ m, noBufRef gates0 en) :
    noBufRef gates0 (resolveEntry m k g) := by
  cases g with
  | buf t =>
    have hvd : Signal.validDep k nbIn t = true :=
      hwfg t (by simp [Gate.dependencies])
    simp only [resolveEntry]
    cases hts : t.src with
    | const =>
      rw [resolveSig_const hts]
      intro w hw
      rw [hts] at hw
      cases hw
    | input j =>
      rw [resolveSig_input hts]
      intro w hw
      rw [hts] at hw
      cases hw
    | node u =>
      have hu : u < k := validDep_node hvd hts
      obtain ⟨en, hen⟩ := get?_lt_isSome m u (by rw [hm]; exact hu)
      rw [resolveSig_node_some hts hen]
      intro w hw
      exact hprev en (mem_of_get?_eq_some hen) w hw
  | binary op a b =>
    simp only [resolveEntry]
    exact noBufRef_ofNode hg rfl
  | ternary op a b c =>
    simp only [resolveEntry]
    exact noBufRef_ofNode hg rfl
  | nary op fs =>
    simp only [resolveEntry]
    exact noBufRef_ofNode hg rfl
  | dff t =>
    simp only [resolveEntry]
    exact noBufRef_ofNode hg rfl
  | lut fs tt =>
    simp only [resolveEntry]
    exact noBufRef_ofNode hg rfl

theorem resolveMapAux_noBuf (gates0 : List Gate) (nbIn : Nat) :
    ∀ (gs : List Gate) (k : Nat) (m : List Signal),
      m.length = k →
      (∀ j, gates0.get? (k + j) = gs.get? j) →
      gatesWF nbIn k gs = true →
      (∀ en ∈ m, noBufRef gates0 en) →
      ∀ en ∈ resolveMapAux k gs m, noBufRef gates0 en := by
  intro gs
  induction gs with
  | nil =>
    intro k m _ _ _ hprev en hen
    rw [resolveMapAux] at hen
    exact hprev en hen
  | cons g gs ih =>
    intro k m hm halign hwf hprev en hen
    rw [resolveMapAux] at hen
    rw [gatesWF, Bool.and_eq_true] at hwf
    have hg0 : gates0.get? k = some g := by
      have := halign 0
      simpa using this
    have hentry : noBufRef gates0 (resolveEntry m k g) :=
      resolveEntry_noBuf hm hg0 (List.all_eq_true.1 hwf.1) hprev
    refine ih (k + 1) (m ++ [resolveEntry m k g]) (by simp [hm]) ?_ hwf.2 ?_ en hen
    · intro j
      have := halign (j + 1)
      have heq : k + 1 + j = k + (j + 1) := by omega
      rw [heq]
      exact this
    · intro en' hen'
      rcases List.mem_append.1 hen' with h | h
      · exact hprev en' h
      · rw [List.mem_singleton] at h
        exact h ▸ hentry

theorem resolveMap_noBuf {gates : List Gate} {nbIn : Nat}
    (hwf : gatesWF nbIn 0 gates = true) :
    ∀ en ∈ resolveMap gates, noBufRef gates en := by
  rw [resolveMap]
  exact resolveMapAux_noBuf gates nbIn gates 0 [] rfl (fun j => by simp) hwf
    (fun en hen => absurd hen (List.not_mem_nil en))

end Quaigh

namespace Quaigh

theorem get?_eq_getD_any {α : Type} (d : α) {l : List α} {n : Nat}
    (h : n < l.length) : l.get? n = some (l.getD n d) := by
  obtain ⟨a, ha⟩ := get?_lt_isSome l n h
  rw [ha, List.getD_eq_getD_get?, ha]
  rfl

theorem noBufRef_map {gates : List Gate} {f : Signal → Signal} {s : Signal}
    (h : noBufRef gates s) : noBufRef (gates.map (Gate.mapSigs f)) s := by
  intro w hw g hg
  rw [List.get?_map] at hg
  cases hgw : gates.get? w with
  | none => rw [hgw] at hg; cases hg
  | some g0 =>
    rw [hgw] at hg
    simp only [Option.map_some'] at hg
    have hgg := Option.some_inj.1 hg
    subst hgg
    rw [isBuf_mapSigs]
    exact h w hw g0 hgw

theorem resolveSig_noBufRef {gates : List Gate} {nbIn : Nat}
    (hwf : gatesWF nbIn 0 gates = true) {s : Signal}
    (hb : ∀ w, s.src = .node w → w < gates.length) :
    noBufRef gates (resolveSig (resolveMap gates) s) := by
  cases hs : s.src with
  | const =>
    rw [resolveSig_const hs]
    intro w hw
    rw [hs] at hw
    cases hw
  | input j =>
    rw [resolveSig_input hs]
    intro w hw
    rw [hs] at hw
    cases hw
  | node v =>
    have hv := hb v hs
    obtain ⟨en, hen⟩ := get?_lt_isSome (resolveMap gates) v
      (by rw [resolveMap_length]; exact hv)
    rw [resolveSig_node_some hs hen]
    intro w hw
    exact resolveMap_noBuf hwf en (mem_of_get?_eq_some hen) w hw

theorem forwardBufs_gates_get? (X : Network) (n : Nat) :
    (forwardBufs X).gates.get? n =
      (X.gates.get? n).map (Gate.mapSigs (resolveSig (resolveMap X.gates))) := by
  simp only [forwardBufs]
  exact List.get?_map _ _ _

theorem forwardBufs_clean (X : Network) (hwf : X.wellFormed = true) :
    (∀ o ∈ (forwardBufs X).outputs, noBufRef (forwardBufs X).gates o) ∧
    (∀ n g, (forwardBufs X).gates.get? n = some g →
      ∀ d ∈ g.dependencies, noBufRef (forwardBufs X).gates d) := by
  have hwfg : gatesWF X.nbInputs 0 X.gates = true := by
    rw [Network.wellFormed, Bool.and_eq_true] at hwf
    exact hwf.1
  constructor
  · intro o ho
    have houts : (forwardBufs X).outputs =
        X.outputs.map (resolveSig (resolveMap X.gates)) := by
      simp only [forwardBufs]
    rw [houts] at ho
    obtain ⟨o0, ho0, rfl⟩ := List.mem_map.1 ho
    have hgeq : (forwardBufs X).gates =
        X.gates.map (Gate.mapSigs (resolveSig (resolveMap X.gates))) := by
      simp only [forwardBufs]
    rw [hgeq]
    apply noBufRef_map
    apply resolveSig_noBufRef hwfg
    intro w hw
    exact validDep_node (wellFormed_outputs hwf o0 ho0) hw
  · intro n g hg d hd
    rw [forwardBufs_gates_get? X n] at hg
    cases hg0 : X.gates.get? n with
    | none => rw [hg0] at hg; cases hg
    | some g0 =>
      rw [hg0] at hg
      simp only [Option.map_some'] at hg
      have hgg := Option.some_inj.1 hg
      subst hgg
      rw [dependencies_mapSigs] at hd
      obtain ⟨d0, hd0, rfl⟩ := List.mem_map.1 hd
      have hgeq : (forwardBufs X).gates =
          X.gates.map (Gate.mapSigs (resolveSig (resolveMap X.gates))) := by
        simp only [forwardBufs]
      rw [hgeq]
      apply noBufRef_map
      apply resolveSig_noBufRef hwfg
      intro w hw
      have hwn : w < n := validDep_node (wellFormed_deps hwf hg0 d0 hd0) hw
      have hn : n < X.gates.length := get?_some_lt hg0
      omega

theorem markSig_notBuf {gates : List Gate} {marks : List Bool} {s : Signal}
    (hInv : ∀ j, marks.getD j false = true →
      ∀ g, gates.get? j = some g → g.isBuf = false)
    (hs : noBufRef gates s) :
    ∀ j, (markSig marks s).getD j false = true →
      ∀ g, gates.get? j = some g → g.isBuf = false := by
  intro j hj g hg
  cases hss : s.src with
  | const =>
    rw [show markSig marks s = marks by simp [markSig, hss]] at hj
    exact hInv j hj g hg
  | input i =>
    rw [show markSig marks s = marks by simp [markSig, hss]] at hj
    exact hInv j hj g hg
  | node v =>
    rw [show markSig marks s = marks.set v true by simp [markSig, hss]] at hj
    by_cases hjv : j = v
    · subst hjv
      exact hs j hss g hg
    · rw [getD_set_ne _ _ _ _ _ fun hx => hjv hx.symm] at hj
      exact hInv j hj g hg

theorem foldl_markSig_notBuf {gates : List Gate} :
    ∀ (os : List Signal) (marks : List Bool),
      (∀ o ∈ os, noBufRef gates o) →
      (∀ j, marks.getD j false = true →
        ∀ g, gates.get? j = some g → g.isBuf = false) →
      ∀ j, (os.foldl markSig marks).getD j false = true →
        ∀ g, gates.get? j = some g → g.isBuf = false := by
  intro os
  induction os with
  | nil => intro marks _ hInv; exact hInv
  | cons o os ih =>
    intro marks hos hInv
    simp only [List.foldl_cons]
    exact ih (markSig marks o)
      (fun o' ho' => hos o' (List.mem_cons_of_mem _ ho'))
      (markSig_notBuf hInv (hos o (List.mem_cons_self _ _)))

theorem markStep_notBuf {gates : List Gate} {marks : List Bool} {n : Nat}
    (hdeps : ∀ k g, gates.get? k = some g → ∀ d ∈ g.dependencies, noBufRef gates d)
    (hInv : ∀ j, marks.getD j false = true →
      ∀ g, gates.get? j = some g → g.isBuf = false) :
    ∀ j, (markStep gates marks n).getD j false = true →
      ∀ g, gates.get? j = some g → g.isBuf = false := by
  rw [markStep]
  by_cases hm : marks.getD n false = true
  · rw [if_pos hm]
    by_cases hn : n < gates.length
    · exact foldl_markSig_notBuf (gates.getD n defaultGate).dependencies marks
        (hdeps n _ (get?_eq_getD_any defaultGate hn)) hInv
    · rw [List.getD_eq_default _ _ (by omega)]
      have hfold : (defaultGate.dependencies).foldl markSig marks = marks := by
        simp [defaultGate, Gate.dependencies, markSig]
      rw [hfold]
      exact hInv
  · rw [if_neg hm]
    exact hInv

theorem foldl_markStep_notBuf {gates : List Gate} :
    ∀ (ns : List Nat) (marks : List Bool),
      (∀ k g, gates.get? k = some g → ∀ d ∈ g.dependencies, noBufRef gates d) →
      (∀ j, marks.getD j false = true →
        ∀ g, gates.get? j = some g → g.isBuf = false) →
      ∀ j, (ns.foldl (markStep gates) marks).getD j false = true →
        ∀ g, gates.get? j = some g → g.isBuf = false := by
  intro ns
  induction ns with
  | nil => intro marks _ hInv; exact hInv
  | cons n ns ih =>
    intro marks hdeps hInv
    simp only [List.foldl_cons]
    exact ih (markStep gates marks n) hdeps (markStep_notBuf hdeps hInv)

theorem reachMarks_notBuf (Y : Network)
    (hout : ∀ o ∈ Y.outputs, noBufRef Y.gates o)
    (hdeps : ∀ k g, Y.gates.get? k = some g → ∀ d ∈ g.dependencies, noBufRef Y.gates d) :
    ∀ j, (reachMarks Y).getD j false = true →
      ∀ g, Y.gates.get? j = some g → g.isBuf = false := by
  rw [reachMarks]
  apply foldl_markStep_notBuf _ _ hdeps
  apply foldl_markSig_notBuf _ _ hout
  intro j hj
  rw [getD_replicate] at hj
  cases hj

end Quaigh

namespace Quaigh

theorem markSig_length (marks : List Bool) (s : Signal) :
    (markSig marks s).length = marks.length := by
  cases hs : s.src <;> simp [markSig, hs]

theorem foldl_markSig_length :
    ∀ (os : List Signal) (marks : List Bool),
      (os.foldl markSig marks).length = marks.length := by
  intro os
  induction os with
  | nil => intro marks; rfl
  | cons o os ih =>
    intro marks
    simp only [List.foldl_cons]
    rw [ih, markSig_length]

theorem markStep_length (gates : List Gate) (marks : List Bool) (n : Nat) :
    (markStep gates marks n).length = marks.length := by
  rw [markStep]
  by_cases hm : marks.getD n false = true
  · rw [if_pos hm]
    exact foldl_markSig_length _ _
  · rw [if_neg hm]

theorem foldl_markStep_length (gates : List Gate) :
    ∀ (ns : List Nat) (marks : List Bool),
      (ns.foldl (markStep gates) marks).length = marks.length := by
  intro ns
  induction ns with
  | nil => intro marks; rfl
  | cons n ns ih =>
    intro marks
    simp only [List.foldl_cons]
    rw [ih, markStep_length]

theorem reachMarks_length (Y : Network) : (reachMarks Y).length = Y.nbNodes := by
  rw [reachMarks]
  rw [foldl_markStep_length, foldl_markSig_length]
  simp

theorem countTrue_le (ms : List Bool) : countTrue ms ≤ ms.length := by
  rw [countTrue]
  exact List.length_filter_le _ _

theorem countTrue_lt :
    ∀ (ms : List Bool) (j : Nat), j < ms.length → ms.getD j false = false →
      countTrue ms < ms.length := by
  intro ms
  induction ms with
  | nil => intro j h; simp at h
  | cons b bs ih =>
    intro j hj hf
    cases j with
    | zero =>
      have hb : b = false := hf
      subst hb
      have h1 : List.filter id (false :: bs) = List.filter id bs := by simp
      rw [countTrue, h1]
      have := List.length_filter_le id bs
      simp only [List.length_cons]
      omega
    | succ j =>
      have hj' : j < bs.length := by simpa using hj
      have hlt := ih j hj' hf
      rw [countTrue] at hlt ⊢
      cases b with
      | true =>
        have h1 : List.filter id (true :: bs) = true :: List.filter id bs := by simp
        rw [h1]
        simp only [List.length_cons]
        omega
      | false =>
        have h1 : List.filter id (false :: bs) = List.filter id bs := by simp
        rw [h1]
        simp only [List.length_cons]
        omega

theorem keepGates_length :
    ∀ (gs : List Gate) (ms : List Bool), gs.length = ms.length →
      (keepGates gs ms).length = countTrue ms := by
  intro gs
  induction gs with
  | nil =>
    intro ms h
    cases ms with
    | nil => rfl
    | cons b bs => simp at h
  | cons g gs ih =>
    intro ms h
    cases ms with
    | nil => simp at h
    | cons b bs =>
      have h' : gs.length = bs.length := by simpa using h
      have hk := ih bs h'
      cases b with
      | true =>
        have h1 : keepGates (g :: gs) (true :: bs) = g :: keepGates gs bs := by
          simp [keepGates, List.zip_cons_cons]
        have h2 : countTrue (true :: bs) = countTrue bs + 1 := by
          simp [countTrue]
        rw [h1, h2]
        simp only [List.length_cons]
        omega
      | false =>
        have h1 : keepGates (g :: gs) (false :: bs) = keepGates gs bs := by
          simp [keepGates, List.zip_cons_cons]
        have h2 : countTrue (false :: bs) = countTrue bs := by
          simp [countTrue]
        rw [h1, h2, hk]

theorem gatesWF_set {nbIn : Nat} (g' : Gate) :
    ∀ (gs : List Gate) (k i : Nat),
      gatesWF nbIn k gs = true →
      (∀ d ∈ g'.dependencies, Signal.validDep (k + i) nbIn d = true) →
      gatesWF nbIn k (gs.set i g') = true := by
  intro gs
  induction gs with
  | nil => intro k i h _; exact h
  | cons g gs ih =>
    intro k i h hg'
    rw [gatesWF, Bool.and_eq_true] at h
    cases i with
    | zero =>
      rw [List.set]
      rw [gatesWF, Bool.and_eq_true]
      refine ⟨List.all_eq_true.2 ?_, h.2⟩
      intro d hd
      have := hg' d hd
      simpa using this
    | succ i =>
      rw [List.set]
      rw [gatesWF, Bool.and_eq_true]
      refine ⟨h.1, ih (k + 1) i h.2 ?_⟩
      intro d hd
      have := hg' d hd
      have heq : (k + 1) + i = k + (i + 1) := by omega
      rw [heq]
      exact this

theorem substitute_wellFormed {ntk : Network} {i : Nat} {s : Signal}
    (hwf : ntk.wellFormed = true) (hs : Signal.validDep i ntk.nbInputs s = true) :
    (substitute_node ntk i s).wellFormed = true := by
  rw [Network.wellFormed, Bool.and_eq_true] at hwf
  rw [Network.wellFormed, Bool.and_eq_true]
  constructor
  · apply gatesWF_set _ _ _ _ hwf.1
    intro d hd
    simp only [Gate.dependencies, List.mem_singleton] at hd
    subst hd
    simpa using hs
  · have hnb : (substitute_node ntk i s).nbNodes = ntk.nbNodes := by
      simp [substitute_node, Network.replace, Network.nbNodes]
    have houts : (substitute_node ntk i s).outputs = ntk.outputs := rfl
    have hin : (substitute_node ntk i s).nbInputs = ntk.nbInputs := rfl
    rw [houts, hnb, hin]
    exact hwf.2

/-- C5: substituting node `i` by a signal whose sources all lie strictly
below `i`, then canonicalizing, never increases the node count — and
strictly decreases it, since the substituted node has become a forwarding
`Buf` (collapsible) that canonicalization always drops. -/
theorem substitute_make_canonical_shrinks (ntk : Network) (i : Nat) (s : Signal)
    (hwf : ntk.wellFormed = true) (hi : i < ntk.nbNodes)
    (hs : Signal.validDep i ntk.nbInputs s = true) :
    (make_canonical (substitute_node ntk i s)).nbNodes ≤ ntk.nbNodes ∧
    (make_canonical (substitute_node ntk i s)).nbNodes < ntk.nbNodes := by
  have hXwf := substitute_wellFormed hwf hs
  have hXlen : (substitute_node ntk i s).gates.length = ntk.gates.length := by
    simp [substitute_node, Network.replace]
  have hYglen : (forwardBufs (substitute_node ntk i s)).gates.length =
      ntk.gates.length := by
    simp only [forwardBufs]
    rw [List.length_map]
    exact hXlen
  have hclean := forwardBufs_clean (substitute_node ntk i s) hXwf
  have hmarks := reachMarks_notBuf (forwardBufs (substitute_node ntk i s))
    hclean.1 hclean.2
  have hXi : (substitute_node ntk i s).gates.get? i = some (.buf s) :=
    get?_set_self _ _ _ hi
  have hYi : (forwardBufs (substitute_node ntk i s)).gates.get? i =
      some (Gate.mapSigs
        (resolveSig (resolveMap (substitute_node ntk i s).gates)) (.buf s)) := by
    rw [forwardBufs_gates_get?, hXi]
    rfl
  have hmi : (reachMarks (forwardBufs (substitute_node ntk i s))).getD i false =
      false := by
    cases hb : (reachMarks (forwardBufs (substitute_node ntk i s))).getD i false with
    | false => rfl
    | true =>
      have hcontr := hmarks i hb _ hYi
      rw [show (Gate.mapSigs
          (resolveSig (resolveMap (substitute_node ntk i s).gates))
          (Gate.buf s)).isBuf = true from rfl] at hcontr
      cases hcontr
  have hreachlen : (reachMarks (forwardBufs (substitute_node ntk i s))).length =
      ntk.nbNodes := by
    rw [reachMarks_length]
    show (forwardBufs (substitute_node ntk i s)).gates.length = ntk.nbNodes
    rw [hYglen]
    rfl
  have hcount : (make_canonical (substitute_node ntk i s)).nbNodes =
      countTrue (reachMarks (forwardBufs (substitute_node ntk i s))) := by
    rw [make_canonical]
    show ((keepGates (forwardBufs (substitute_node ntk i s)).gates
      (reachMarks (forwardBufs (substitute_node ntk i s)))).map _).length = _
    rw [List.length_map]
    apply keepGates_length
    rw [hreachlen, hYglen]
    rfl
  constructor
  · rw [hcount]
    have h1 := countTrue_le (reachMarks (forwardBufs (substitute_node ntk i s)))
    omega
  · rw [hcount]
    have h2 := countTrue_lt (reachMarks (forwardBufs (substitute_node ntk i s))) i
      (by rw [hreachlen]; exact hi) hmi
    omega

/-- Witness for C5 at the reference network, substituting `f2` by `x3`. -/
theorem substitute_make_canonical_shrinks_witness :
    substNetwork.wellFormed = true ∧ 1 < substNetwork.nbNodes ∧
    Signal.validDep 1 substNetwork.nbInputs (Signal.ofInput 2) = true ∧
    ((make_canonical (substitute_node substNetwork 1 (Signal.ofInput 2))).nbNodes ≤
        substNetwork.nbNodes ∧
      (make_canonical (substitute_node substNetwork 1 (Signal.ofInput 2))).nbNodes <
        substNetwork.nbNodes) :=
  ⟨by decide, by decide, by decide,
    substitute_make_canonical_shrinks substNetwork 1 (Signal.ofInput 2)
      (by decide) (by decide) (by decide)⟩

end Quaigh
